import Mathlib

/-!
# A verification development for `linq.h`

The header implements lazy query pipelines over iterator pairs.  Every
`iterator<Proxy, Base, Out, ItType>` derives from its `Base` down to the
iterator of the underlying container, so a cursor value is always a position in
that container; what differs between iterator types is how `operator!=`,
`operator++` and `operator*` act on the position and which members of the
owning stage (`proxy_`) they consult.

* A position is represented by the list of container elements from the
  position to the container end (`[]` is the past-the-end position).
* The only mutable member of any stage is `Take::number_`; iterator operations
  therefore thread a context `σ` holding the counters reachable through the
  `proxy_` references (`Unit` when there is none).
* Dereferencing or incrementing the past-the-end position is undefined
  behaviour in C++; here these operations return `none`.
* A stage holds its filter and its loader either by value or as a reference,
  depending on the template argument it was instantiated with.  Where that
  argument is `decltype` of a `const auto &` local of the member that builds the
  stage, the stage holds a reference to a closure that is destroyed when the
  member returns; such a filter or loader is `none`, and calling or copying it
  is undefined behaviour.  Objects that the caller owns (the function objects
  passed in, the stage an iterator refers to) are taken to outlive their use.
-/

namespace linq

/-! ## Iterators -/

/-- Width of `std::size_t`. -/
def size_bits : Nat := 64

/-- The three operations of an iterator type: `operator!=`, `operator++`
(returning the updated context and position) and `operator*`. -/
structure iterator (σ α Out : Type) where
  neq : σ → List α → List α → Bool
  incr : σ → List α → Option (σ × List α)
  deref : List α → Option Out

/-- The iterator of the underlying container (`std::vector<T>::const_iterator`):
two positions of one container differ exactly when their distances to the end
differ. -/
def container_iterator (α : Type) : iterator Unit α α where
  neq := fun _ a b => a.length != b.length
  incr := fun s it =>
    match it with
    | [] => none
    | _ :: rest => some (s, rest)
  deref := fun it => it.head?

/-- The specialisation `iterator<Proxy, Base, Out, iterator_type::basic>`. -/
def iterator.basic {σ α Out : Type} (Base : iterator σ α Out) : iterator σ α Out where
  neq := fun s a b => Base.neq s a b
  incr := fun s it => Base.incr s it
  deref := fun it => Base.deref it

/-- The specialisation `iterator<Proxy, Base, Out, iterator_type::load>`;
`load` is `proxy_.load`. -/
def iterator.load {σ α B Out : Type} (Base : iterator σ α B)
    (load : List α → Option Out) : iterator σ α Out where
  neq := fun s a b => Base.neq s a b
  incr := fun s it => Base.incr s it
  deref := fun it => load it

/-- The loop `do { ++base; } while (proxy_.validate(base));` shared by the
`filter` and `full` iterators.  Every pass moves the position at least one
element forward, so the number of passes is bounded by the number of remaining
elements, which is what the first argument counts. -/
def iterator.skip_invalid {σ α B : Type} (Base : iterator σ α B)
    (validate : σ → List α → Option Bool) : Nat → σ → List α → Option (σ × List α)
  | 0, _, _ => none
  | fuel + 1, s, it =>
    match Base.incr s it with
    | none => none
    | some (s1, it1) =>
      match validate s1 it1 with
      | none => none
      | some true => iterator.skip_invalid Base validate fuel s1 it1
      | some false => some (s1, it1)

/-- The specialisation `iterator<Proxy, Base, Out, iterator_type::filter>`;
`validate` is `proxy_.validate`. -/
def iterator.filter {σ α Out : Type} (Base : iterator σ α Out)
    (validate : σ → List α → Option Bool) : iterator σ α Out where
  neq := fun s a b => Base.neq s a b
  incr := fun s it => iterator.skip_invalid Base validate it.length s it
  deref := fun it => Base.deref it

/-- The specialisation `iterator<Proxy, Base, Out, iterator_type::full>`. -/
def iterator.full {σ α B Out : Type} (Base : iterator σ α B)
    (validate : σ → List α → Option Bool) (load : List α → Option Out) :
    iterator σ α Out where
  neq := fun s a b => Base.neq s a b
  incr := fun s it => iterator.skip_invalid Base validate it.length s it
  deref := fun it => load it

/-- The member `Take::reach`: `number_ > 0`. -/
def Take.reach (number_ : Nat) : Bool := decide (number_ > 0)

/-- The member `Take::incr`: `--number_` on a `std::size_t`. -/
def Take.incr (number_ : Nat) : Nat := (number_ + 2 ^ size_bits - 1) % 2 ^ size_bits

/-- The specialisation `iterator<Proxy, Base, Out, iterator_type::reach>`, whose
proxy is a `Take` stage: the context gains the stage's `number_`. -/
def iterator.reach {σ α Out : Type} (Base : iterator σ α Out) : iterator (Nat × σ) α Out where
  neq := fun s a b => Base.neq s.2 a b && Take.reach s.1
  incr := fun s it =>
    let number_ := Take.incr s.1
    match Base.incr s.2 it with
    | none => none
    | some (s1, it1) => some ((number_, s1), it1)
  deref := fun it => Base.deref it

/-- What the algorithms of the standard library require of a range `[first, last)`:
every iterator type of the header inherits the random access category of the container's
iterator, so `last` must be reachable from `first` (the distance `last - first`, taken
on the container positions, is not negative) and `!=` must hold exactly when that
distance is not zero. -/
def valid_range {σ α Out : Type} (I : iterator σ α Out) (s : σ) (first last : List α) :
    Bool :=
  decide (last.length ≤ first.length) && (I.neq s first last == (first.length != last.length))

/-- What the algorithms of the standard library require of `++`: it moves to the next
position of the container. -/
def next_position {α : Type} (first first1 : List α) : Bool :=
  decide (first1.length + 1 = first.length)

/-- The algorithm `std::find_if(first, last, pred)`:
`for (; first != last; ++first) if (pred(*first)) return first; return last;`.
Implementations may instead count `last - first` passes; both agree as long as the
iterators meet `valid_range` and `next_position`, and where they do not the standard
places no requirement on the result, which is `none` here.  The first argument bounds
the number of passes. -/
def find_if {σ α Out : Type} (I : iterator σ α Out) (pred : Out → Bool) :
    Nat → σ → List α → List α → Option (σ × List α)
  | 0, _, _, _ => none
  | fuel + 1, s, first, last =>
    if valid_range I s first last then
      if I.neq s first last then
        match I.deref first with
        | none => none
        | some v =>
          if pred v then some (s, first)
          else
            match I.incr s first with
            | none => none
            | some (s1, first1) =>
              if next_position first first1 then find_if I pred fuel s1 first1 last
              else none
      else some (s, last)
    else none

/-! ## Stages -/

/-- The class template `IState<Proxy, Base_It, Out, ItType>`: the begin/end pair under
the stage's iterator type `it`, together with the iterator type `Base_It` that
`static_cast<Base_It const &>` exposes, the part `slice` of the context that
`Base_It` sees, and the current context. -/
structure IState (σB σ α B Out : Type) where
  Base_It : iterator σB α B
  it : iterator σ α Out
  slice : σ → σB
  _begin : List α
  _end : List α
  ctx : σ

/-- The class template `From<Iterator>`. -/
structure From (σ α Out : Type) where
  Iterator : iterator σ α Out
  _begin : List α
  _end : List α
  ctx : σ

/-- The class template `Where<Iterator, Filter>`.  The member `_filter` is `some` of the
predicate when `Filter` is a value type or a reference to a live object, and `none` when
`Filter` is a reference type whose referent has been destroyed. -/
structure Where (σ α Out : Type) where
  Iterator : iterator σ α Out
  _begin : List α
  _end : List α
  _filter : Option (Out → Bool)
  ctx : σ

/-- The class template `Select<Iterator, Loader>`; `_loader` is `none` when `Loader` is a
reference type whose referent has been destroyed. -/
structure Select (σ α B Out : Type) where
  Iterator : iterator σ α B
  _begin : List α
  _end : List α
  _loader : Option (B → Out)
  ctx : σ

/-- The class template `SelectWhere<Iterator, Filter, Loader>`; `_filter` and `_loader`
are `none` when the template argument is a reference type whose referent has been
destroyed. -/
structure SelectWhere (σ α B Out : Type) where
  Iterator : iterator σ α B
  _begin : List α
  _end : List α
  _filter : Option (B → Bool)
  _loader : Option (B → Out)
  ctx : σ

/-- The class template `Take<Iterator>`. -/
structure Take (σ α Out : Type) where
  Iterator : iterator σ α Out
  _begin : List α
  _end : List α
  number_ : Nat
  ctx : σ

/-- The base-class subobject of a `From` stage. -/
def From.toIState {σ α Out : Type} (f : From σ α Out) : IState σ σ α Out Out where
  Base_It := f.Iterator
  it := iterator.basic f.Iterator
  slice := id
  _begin := f._begin
  _end := f._end
  ctx := f.ctx

/-- The member `Where::validate`: `it != _end && !_filter(*it)`. -/
def Where.validate {σ α Out : Type} (w : Where σ α Out) (s : σ) (it : List α) : Option Bool :=
  if w.Iterator.neq s it w._end then
    match w.Iterator.deref it, w._filter with
    | some v, some _filter => some (!_filter v)
    | _, _ => none
  else some false

/-- The base-class subobject of a `Where` stage. -/
def Where.toIState {σ α Out : Type} (w : Where σ α Out) : IState σ σ α Out Out where
  Base_It := w.Iterator
  it := iterator.filter w.Iterator w.validate
  slice := id
  _begin := w._begin
  _end := w._end
  ctx := w.ctx

/-- The member `Select::load`: `_loader(*it)`. -/
def Select.load {σ α B Out : Type} (st : Select σ α B Out) (it : List α) : Option Out :=
  match st.Iterator.deref it, st._loader with
  | some v, some _loader => some (_loader v)
  | _, _ => none

/-- The base-class subobject of a `Select` stage. -/
def Select.toIState {σ α B Out : Type} (st : Select σ α B Out) : IState σ σ α B Out where
  Base_It := st.Iterator
  it := iterator.load st.Iterator st.load
  slice := id
  _begin := st._begin
  _end := st._end
  ctx := st.ctx

/-- The member `SelectWhere::validate`: `it != _end && !_filter(*it)`. -/
def SelectWhere.validate {σ α B Out : Type} (st : SelectWhere σ α B Out) (s : σ)
    (it : List α) : Option Bool :=
  if st.Iterator.neq s it st._end then
    match st.Iterator.deref it, st._filter with
    | some v, some _filter => some (!_filter v)
    | _, _ => none
  else some false

/-- The member `SelectWhere::load`: `_loader(*it)`. -/
def SelectWhere.load {σ α B Out : Type} (st : SelectWhere σ α B Out) (it : List α) :
    Option Out :=
  match st.Iterator.deref it, st._loader with
  | some v, some _loader => some (_loader v)
  | _, _ => none

/-- The base-class subobject of a `SelectWhere` stage. -/
def SelectWhere.toIState {σ α B Out : Type} (st : SelectWhere σ α B Out) :
    IState σ σ α B Out where
  Base_It := st.Iterator
  it := iterator.full st.Iterator st.validate st.load
  slice := id
  _begin := st._begin
  _end := st._end
  ctx := st.ctx

/-- The base-class subobject of a `Take` stage; its context is `number_` paired with the
context of the wrapped iterator. -/
def Take.toIState {σ α Out : Type} (t : Take σ α Out) : IState σ (Nat × σ) α Out Out where
  Base_It := t.Iterator
  it := iterator.reach t.Iterator
  slice := Prod.snd
  _begin := t._begin
  _end := t._end
  ctx := (t.number_, t.ctx)

/-- The factory `from(container)`: a root stage over the whole container. -/
def from_ {α : Type} (container : List α) : From Unit α α where
  Iterator := container_iterator α
  _begin := container
  _end := []
  ctx := ()

/-! ## Stage-building members -/

/-- The member `IState::select`: a `Select<Base_It, Func>` over the receiver's range
seen through `static_cast<Base_It const &>`; the loader is held by value. -/
def IState.select {σB σ α B Out C : Type} (st : IState σB σ α B Out) (next_loader : B → C) :
    Select σB α B C where
  Iterator := st.Base_It
  _begin := st._begin
  _end := st._end
  _loader := some next_loader
  ctx := st.slice st.ctx

/-- The member `IState::where`: a `Where<Base_It, Func>` whose begin is
`std::find_if` over the receiver's range seen through `static_cast<Base_It const &>`;
the filter is held by value. -/
def IState.where_ {σB σ α B Out : Type} (st : IState σB σ α B Out) (next_filter : B → Bool) :
    Option (Where σB α B) :=
  match find_if st.Base_It next_filter (st._begin.length + 1) (st.slice st.ctx)
      st._begin st._end with
  | none => none
  | some (s, first) =>
    some { Iterator := st.Base_It, _begin := first, _end := st._end,
           _filter := some next_filter, ctx := s }

/-- The member `IState::take`: `Take<iterator_t>(_begin, _end, number)`. -/
def IState.take {σB σ α B Out : Type} (st : IState σB σ α B Out) (number : Nat) :
    Take σ α Out where
  Iterator := st.it
  _begin := st._begin
  _end := st._end
  number_ := number
  ctx := st.ctx

/-- The member `Take::take`: `Take<Iterator>(this->_begin, this->_end, number)`. -/
def Take.take {σ α Out : Type} (t : Take σ α Out) (number : Nat) : Take σ α Out where
  Iterator := t.Iterator
  _begin := t._begin
  _end := t._end
  number_ := number
  ctx := t.ctx

/-- The member `Where::select`: a `SelectWhere<Iterator, Filter, decltype(next_loader)>`.
The filter keeps the template argument `Filter` of the receiver, so it is passed on as
it is held; the loader is a reference to the caller's function object. -/
def Where.select {σ α Out C : Type} (w : Where σ α Out) (next_loader : Out → C) :
    SelectWhere σ α Out C where
  Iterator := w.Iterator
  _begin := w._begin
  _end := w._end
  _filter := w._filter
  _loader := some next_loader
  ctx := w.ctx

/-- The member `Where::where`.  The closure `new_filter` captures copies of `_filter` and
`next_filter` and is alive while `std::find_if` runs; it is declared `const auto &`, so
the result `Where<Iterator, decltype(new_filter)>` holds a reference to it, and it is
destroyed when the member returns: the `_filter` of the result is `none`. -/
def Where.where_ {σ α Out : Type} (w : Where σ α Out) (next_filter : Out → Bool) :
    Option (Where σ α Out) :=
  match w._filter with
  | none => none
  | some last_filter =>
    let new_filter := fun value => last_filter value && next_filter value
    match find_if w.Iterator new_filter (w._begin.length + 1) w.ctx w._begin w._end with
    | none => none
    | some (s, first) =>
      some { Iterator := w.Iterator, _begin := first, _end := w._end,
             _filter := none, ctx := s }

/-- The member `Select::select`.  The closure `new_loader` captures copies of `_loader`
and `next_loader`; it is declared `const auto &`, so the result
`Select<Iterator, decltype(new_loader)>` holds a reference to it, and it is destroyed
when the member returns: the `_loader` of the result is `none`. -/
def Select.select {σ α B Out C : Type} (st : Select σ α B Out) (_next_loader : Out → C) :
    Option (Select σ α B C) :=
  match st._loader with
  | none => none
  | some _last_loader =>
    some { Iterator := st.Iterator, _begin := st._begin, _end := st._end,
           _loader := none, ctx := st.ctx }

/-- The member `Select::where`.  The closure `new_filter` is alive while `std::find_if`
runs; it is declared `const auto &`, so the result
`SelectWhere<Iterator, decltype(new_filter), Loader>` holds a reference to it, and it is
destroyed when the member returns: the `_filter` of the result is `none`.  The loader
keeps the template argument `Loader` of the receiver. -/
def Select.where_ {σ α B Out : Type} (st : Select σ α B Out) (next_filter : Out → Bool) :
    Option (SelectWhere σ α B Out) :=
  match st._loader with
  | none => none
  | some last_loader =>
    let new_filter := fun value => next_filter (last_loader value)
    match find_if st.Iterator new_filter (st._begin.length + 1) st.ctx st._begin st._end with
    | none => none
    | some (s, first) =>
      some { Iterator := st.Iterator, _begin := first, _end := st._end,
             _filter := none, _loader := some last_loader, ctx := s }

/-- The member `SelectWhere::select`.  The closure `new_loader` captures copies of
`_loader` and `next_loader` and is declared `const auto`, so the result holds it by
value; the filter keeps the template argument `Filter` of the receiver. -/
def SelectWhere.select {σ α B Out C : Type} (st : SelectWhere σ α B Out)
    (next_loader : Out → C) : Option (SelectWhere σ α B C) :=
  match st._loader with
  | none => none
  | some last_loader =>
    let new_loader := fun value => next_loader (last_loader value)
    some { Iterator := st.Iterator, _begin := st._begin, _end := st._end,
           _filter := st._filter, _loader := some new_loader, ctx := st.ctx }

/-- The member `SelectWhere::where`.  The closure `new_filter` captures copies of
`_loader`, `_filter` and `next_filter` and is alive while `std::find_if` runs; it is
declared `const auto &`, so the result holds a reference to it, and it is destroyed when
the member returns: the `_filter` of the result is `none`.  The loader keeps the template
argument `Loader` of the receiver. -/
def SelectWhere.where_ {σ α B Out : Type} (st : SelectWhere σ α B Out)
    (next_filter : Out → Bool) : Option (SelectWhere σ α B Out) :=
  match st._loader, st._filter with
  | some last_loader, some last_filter =>
    let new_filter := fun value => last_filter value && next_filter (last_loader value)
    match find_if st.Iterator new_filter (st._begin.length + 1) st.ctx st._begin st._end with
    | none => none
    | some (s, first) =>
      some { Iterator := st.Iterator, _begin := first, _end := st._end,
             _filter := none, _loader := some last_loader, ctx := s }
  | _, _ => none

/-- The loop of `IState::skipWhile`:
`while (base(ret) != base(_end) && func(*ret)) ++ret;`. -/
def skipWhile_loop {σB σ α B Out : Type} (st : IState σB σ α B Out) (func : Out → Bool) :
    Nat → σ → List α → Option (σ × List α)
  | 0, _, _ => none
  | fuel + 1, s, ret =>
    if st.Base_It.neq (st.slice s) ret st._end then
      match st.it.deref ret with
      | none => none
      | some v =>
        if func v then
          match st.it.incr s ret with
          | none => none
          | some (s1, ret1) => skipWhile_loop st func fuel s1 ret1
        else some (s, ret)
    else some (s, ret)

/-- The member `IState::skipWhile`: a `From<iterator_t>` over `(ret, _end)`. -/
def IState.skipWhile {σB σ α B Out : Type} (st : IState σB σ α B Out) (func : Out → Bool) :
    Option (From σ α Out) :=
  match skipWhile_loop st func (st._begin.length + 1) st.ctx st._begin with
  | none => none
  | some (s, ret) => some { Iterator := st.it, _begin := ret, _end := st._end, ctx := s }

/-- The loop of `IState::skip`:
`for (i = 0; i < offset && ret != _end; ++ret, ++i);`; the first argument is
`offset - i`. -/
def skip_loop {σ α Out : Type} (I : iterator σ α Out) (last : List α) :
    Nat → σ → List α → Option (σ × List α)
  | 0, s, ret => some (s, ret)
  | k + 1, s, ret =>
    if I.neq s ret last then
      match I.incr s ret with
      | none => none
      | some (s1, ret1) => skip_loop I last k s1 ret1
    else some (s, ret)

/-- The member `IState::skip`: a `From<iterator_t>` over `(ret, _end)`. -/
def IState.skip {σB σ α B Out : Type} (st : IState σB σ α B Out) (offset : Nat) :
    Option (From σ α Out) :=
  match skip_loop st.it st._end offset st.ctx st._begin with
  | none => none
  | some (s, ret) => some { Iterator := st.it, _begin := ret, _end := st._end, ctx := s }

/-! ## Terminal members -/

/-- The range-based loop `for (Out it : *this) acc = body(acc, it);`, that is
`for (b = begin(); b != end(); ++b)` with `*b` read at the top of the body.  The
result is the final accumulator and the context the loop leaves behind.  The first
argument bounds the number of passes: every increment moves the position forward, so a
loop never makes more passes than there are elements left in the container, and the
members below start the bound at one more than that; `none` reports an exhausted bound
like any other undefined step. -/
def range_for {σ α Out β : Type} (I : iterator σ α Out) (last : List α) (body : β → Out → β) :
    Nat → σ → List α → β → Option (β × σ)
  | 0, _, _, _ => none
  | fuel + 1, s, it, acc =>
    if I.neq s it last then
      match I.deref it with
      | none => none
      | some v =>
        match I.incr s it with
        | none => none
        | some (s1, it1) => range_for I last body fuel s1 it1 (body acc v)
    else some (acc, s)

/-- A full enumeration of a stage by its user:
`for (Out it : stage) out.push_back(it);` into an empty `out`, driven through `begin()`
and `end()`.  The result is what was produced and the context left behind. -/
def IState.enumerate {σB σ α B Out : Type} (st : IState σB σ α B Out) :
    Option (List Out × σ) :=
  range_for st.it st._end (fun out v => out ++ [v]) (st._begin.length + 1) st.ctx st._begin []

/-- The algorithm `std::copy(first, last, std::back_inserter(out))`:
`for (; first != last; ++first) out.push_back(*first);`.  Implementations may instead
count `last - first` passes; both agree as long as the iterators meet `valid_range` and
`next_position`, and where they do not the standard places no requirement on the result,
which is `none` here.  The first argument bounds the number of passes. -/
def std_copy {σ α Out : Type} (I : iterator σ α Out) :
    Nat → σ → List α → List α → List Out → Option (List Out × σ)
  | 0, _, _, _, _ => none
  | fuel + 1, s, first, last, out =>
    if valid_range I s first last then
      if I.neq s first last then
        match I.deref first with
        | none => none
        | some v =>
          match I.incr s first with
          | none => none
          | some (s1, first1) =>
            if next_position first first1 then std_copy I fuel s1 first1 last (out ++ [v])
            else none
      else some (out, s)
    else none

/-- The member `IState::to(out)`: `std::copy(_begin, _end, std::back_inserter(out))`. -/
def IState.to {σB σ α B Out : Type} (st : IState σB σ α B Out) (out : List Out) :
    Option (List Out × σ) :=
  std_copy st.it (st._begin.length + 1) st.ctx st._begin st._end out

/-- The loop of `IState::count`: `for (it = _begin; it != _end; ++it, ++number);`. -/
def count_loop {σ α Out : Type} (I : iterator σ α Out) (last : List α) :
    Nat → σ → List α → Nat → Option (Nat × σ)
  | 0, _, _, _ => none
  | fuel + 1, s, it, number =>
    if I.neq s it last then
      match I.incr s it with
      | none => none
      | some (s1, it1) => count_loop I last fuel s1 it1 (number + 1)
    else some (number, s)

/-- The member `IState::count`. -/
def IState.count {σB σ α B Out : Type} (st : IState σB σ α B Out) : Option (Nat × σ) :=
  count_loop st.it st._end (st._begin.length + 1) st.ctx st._begin 0

/-- The member `IState::sum`. -/
def IState.sum {σB σ α B Out : Type} [Zero Out] [Add Out] (st : IState σB σ α B Out) :
    Option (Out × σ) :=
  range_for st.it st._end (fun result it => result + it) (st._begin.length + 1)
    st.ctx st._begin 0

/-- The member `IState::min`: seeded with `*_begin`, then
`if (it > val) val = it;` for every element. -/
def IState.min {σB σ α B Out : Type} [LT Out] [DecidableRel (fun a b : Out => a < b)]
    (st : IState σB σ α B Out) : Option (Out × σ) :=
  match st.it.deref st._begin with
  | none => none
  | some val0 =>
    range_for st.it st._end (fun val it => if it > val then it else val)
      (st._begin.length + 1) st.ctx st._begin val0

/-- The member `IState::max`: seeded with `*_begin`, then
`if (it < val) val = it;` for every element. -/
def IState.max {σB σ α B Out : Type} [LT Out] [DecidableRel (fun a b : Out => a < b)]
    (st : IState σB σ α B Out) : Option (Out × σ) :=
  match st.it.deref st._begin with
  | none => none
  | some val0 =>
    range_for st.it st._end (fun val it => if it < val then it else val)
      (st._begin.length + 1) st.ctx st._begin val0

/-! ## Grouping -/

/-- The associative containers of `map_type` (`std::unordered_map` / `std::map`) as
association lists with unique keys.  Only lookup and insertion are modelled; the
iteration order of the containers is not. -/
abbrev map_type (Key Value : Type) : Type := List (Key × Value)

/-- Lookup without insertion (`find`). -/
def map_type.find {Key Value : Type} [DecidableEq Key] :
    map_type Key Value → Key → Option Value
  | [], _ => none
  | (k, v) :: rest, key => if k = key then some v else map_type.find rest key

/-- The member `operator[]` of the standard maps: the mapped value of `key`; when
`key` is absent a value-initialised entry is inserted first. -/
def map_type.index {Key Value : Type} [DecidableEq Key] (handle : map_type Key Value)
    (key : Key) (init : Value) : Value × map_type Key Value :=
  match map_type.find handle key with
  | some v => (v, handle)
  | none => (init, handle ++ [(key, init)])

/-- Writing through the reference returned by `operator[]`. -/
def map_type.assign {Key Value : Type} [DecidableEq Key] :
    map_type Key Value → Key → Value → map_type Key Value
  | [], _, _ => []
  | (k, v) :: rest, key, val =>
    if k = key then (k, val) :: rest else (k, v) :: map_type.assign rest key val

/-- The member `group_by<In>::emplace`: `vec.push_back(val)`. -/
def group_by.emplace_back {In : Type} (vec : List In) (val : In) : List In := vec ++ [val]

/-- The member `group_by<In, KeyLoader>::emplace`:
`group_by<In>::emplace(handle[func(val)], val)`. -/
def group_by.emplace {In Key : Type} [DecidableEq Key] (handle : map_type Key (List In))
    (val : In) (func : In → Key) : map_type Key (List In) :=
  let r := map_type.index handle (func val) []
  map_type.assign r.2 (func val) (group_by.emplace_back r.1 val)

/-- The class template `GroupBy<Iterator, Proxy>`: a range over the entries of the shared
association `proxy_`. -/
structure GroupBy (Key Value : Type) where
  Iterator : iterator Unit (Key × Value) (Key × Value)
  _begin : List (Key × Value)
  _end : List (Key × Value)
  proxy_ : map_type Key Value

/-- The member `GroupBy::operator[]`: `(*proxy_)[key]`.  The result is the bucket and
the stage with the association as the call leaves it. -/
def GroupBy.index {Key In : Type} [DecidableEq Key] (g : GroupBy Key (List In)) (key : Key) :
    List In × GroupBy Key (List In) :=
  let r := map_type.index g.proxy_ key []
  (r.1, { g with proxy_ := r.2 })

/-- The member `IState::groupBy` with one key. -/
def IState.groupBy {σB σ α B Out Key : Type} [DecidableEq Key] (st : IState σB σ α B Out)
    (key : Out → Key) : Option (GroupBy Key (List Out) × σ) :=
  match range_for st.it st._end (fun result it => group_by.emplace result it key)
      (st._begin.length + 1) st.ctx st._begin [] with
  | none => none
  | some (result, s) =>
    some ({ Iterator := container_iterator (Key × List Out), _begin := result, _end := [],
            proxy_ := result }, s)

/-! ## Ordering -/

/-- The enumeration `order_type`. -/
inductive order_type where
  | asc
  | desc
  deriving DecidableEq

/-- A key of `orderBy` as the comparator sees it: `order_by_modifier<Key, OrderType>`
wrapped in `order_by_modifier_end<In, Base>`; `key_` is the extractor and `type` the
declared direction. -/
structure order_by_modifier_end (In : Type) where
  Key : Type
  [inst : LinearOrder Key]
  key_ : In → Key
  type : order_type

attribute [instance] order_by_modifier_end.inst

/-- The helper `asc(key)`. -/
def asc {In Key : Type} [LinearOrder Key] (key : In → Key) : order_by_modifier_end In :=
  { Key := Key, key_ := key, type := order_type.asc }

/-- The helper `desc(key)`. -/
def desc {In Key : Type} [LinearOrder Key] (key : In → Key) : order_by_modifier_end In :=
  { Key := Key, key_ := key, type := order_type.desc }

/-- The functor `order_by_less<In, OrderType>`: `a < b`, and `a > b` for `desc`. -/
def order_by_less {K : Type} [LinearOrder K] : order_type → K → K → Bool
  | order_type.asc, a, b => decide (a < b)
  | order_type.desc, a, b => decide (a > b)

/-- The function `order_by_next`: the overload for exactly two keys and the variadic one. -/
def order_by_next {In : Type} (a b : In) :
    order_by_modifier_end In → order_by_modifier_end In → List (order_by_modifier_end In) → Bool
  | key1, key2, [] =>
    decide (key1.key_ a = key1.key_ b) && order_by_less key2.type (key2.key_ a) (key2.key_ b)
  | key1, key2, key3 :: keys =>
    (decide (key1.key_ a = key1.key_ b) && order_by_less key2.type (key2.key_ a) (key2.key_ b))
      || order_by_next a b key2 key3 keys

/-- The function `order_by`: the overload for one key and the variadic one. -/
def order_by {In : Type} (a b : In) :
    order_by_modifier_end In → List (order_by_modifier_end In) → Bool
  | key, [] => order_by_less key.type (key.key_ a) (key.key_ b)
  | key, key2 :: keys =>
    order_by_less key.type (key.key_ a) (key.key_ b) || order_by_next a b key key2 keys

/-- The class template `OrderBy<Iterator, Proxy>`: a range over the owned vector `proxy_`. -/
structure OrderBy (Out : Type) where
  Iterator : iterator Unit Out Out
  _begin : List Out
  _end : List Out
  proxy_ : List Out

/-- The base-class subobject of an `OrderBy` stage. -/
def OrderBy.toIState {Out : Type} (o : OrderBy Out) : IState Unit Unit Out Out Out where
  Base_It := o.Iterator
  it := iterator.basic o.Iterator
  slice := id
  _begin := o._begin
  _end := o._end
  ctx := ()

/-- The member `OrderBy::asc`: `*this`. -/
def OrderBy.asc {Out : Type} (o : OrderBy Out) : OrderBy Out := o

/-- The member `OrderBy::desc`: the range `(proxy_->rbegin(), proxy_->rend())` over the
same vector. -/
def OrderBy.desc {Out : Type} (o : OrderBy Out) : OrderBy Out where
  Iterator := container_iterator Out
  _begin := o.proxy_.reverse
  _end := []
  proxy_ := o.proxy_

/-- The member `IState::orderBy`: the elements are pushed into a fresh vector, which
`std::sort` then orders with the comparator `order_by(a, b, keys...)`.  The algorithm
`std::sort` belongs to the standard library and is the parameter `sort`. -/
def IState.orderBy {σB σ α B Out : Type} (sort : (Out → Out → Bool) → List Out → List Out)
    (st : IState σB σ α B Out) (key : order_by_modifier_end Out)
    (keys : List (order_by_modifier_end Out)) : Option (OrderBy Out × σ) :=
  match range_for st.it st._end (fun proxy it => proxy ++ [it])
      (st._begin.length + 1) st.ctx st._begin [] with
  | none => none
  | some (proxy, s) =>
    let sorted := sort (fun a b => order_by a b key keys) proxy
    some ({ Iterator := container_iterator Out, _begin := sorted, _end := [],
            proxy_ := sorted }, s)

/-- What the C++ standard requires of the comparator given to `std::sort`: a strict
weak ordering. -/
def strict_weak_order {T : Type} (comp : T → T → Bool) : Prop :=
  (∀ a, comp a a = false) ∧
  (∀ a b c, comp a b = true → comp b c = true → comp a c = true) ∧
  (∀ a b c, comp a b = false → comp b c = false → comp a c = false)

/-- What the C++ standard guarantees of `std::sort` when the comparator is a strict weak
ordering: the result is a rearrangement of the input in which no element is ordered
before an earlier one. -/
def sort_contract {T : Type} (sort : (T → T → Bool) → List T → List T) : Prop :=
  ∀ comp v, strict_weak_order comp →
    (sort comp v).Perm v ∧ (sort comp v).Pairwise (fun x y => comp y x = false)

/-- An executable instance of `std::sort`: insertion sort. -/
def insertion_sort {T : Type} (comp : T → T → Bool) (v : List T) : List T :=
  v.insertionSort (fun x y => comp y x = false)

/-! ## Traversals -/

/-- The stage object as an operation that ended in context `s` leaves it. -/
def IState.after {σB σ α B Out : Type} (st : IState σB σ α B Out) (s : σ) :
    IState σB σ α B Out :=
  { st with ctx := s }

/-- The relation `Run I last s it L s2`: driving `it` with `I` until `it != last` fails
visits the values `L` and takes the context from `s` to `s2`; every increment moves the
position forward. -/
inductive Run {σ α Out : Type} (I : iterator σ α Out) (last : List α) :
    σ → List α → List Out → σ → Prop where
  | stop (s : σ) (it : List α) : I.neq s it last = false → Run I last s it [] s
  | step (s s1 s2 : σ) (it it1 : List α) (v : Out) (L : List Out) :
      I.neq s it last = true → I.deref it = some v → I.incr s it = some (s1, it1) →
      it1.length < it.length → Run I last s1 it1 L s2 → Run I last s it (v :: L) s2

/-- The relation `Walk I last s it L`: a run that never changes the context. -/
inductive Walk {σ α Out : Type} (I : iterator σ α Out) (last : List α) (s : σ) :
    List α → List Out → Prop where
  | stop (it : List α) : I.neq s it last = false → Walk I last s it []
  | step (it it1 : List α) (v : Out) (L : List Out) :
      I.neq s it last = true → I.deref it = some v → I.incr s it = some (s, it1) →
      it1.length < it.length → Walk I last s it1 L → Walk I last s it (v :: L)

/-- The lexicographic order the keys of `orderBy` declare, as the specification words
it: `a` comes strictly before `b` when some key puts `a` before `b` in its direction
and all keys of higher priority are equal on `a` and `b`. -/
def spec_lex_before {In : Type} (a b : In) : List (order_by_modifier_end In) → Bool
  | [] => false
  | key :: keys =>
    order_by_less key.type (key.key_ a) (key.key_ b)
      || (decide (key.key_ a = key.key_ b) && spec_lex_before a b keys)

/-! ## Lemmas on traversals -/

theorem Walk.run {σ α Out : Type} {I : iterator σ α Out} {last : List α} {s : σ}
    {it : List α} {L : List Out} (h : Walk I last s it L) : Run I last s it L s := by
  induction h with
  | stop it h0 => exact Run.stop s it h0
  | step it it1 v L h0 h1 h2 h3 _ ih => exact Run.step s s s it it1 v L h0 h1 h2 h3 ih

theorem Run.range_for_eq {σ α Out β : Type} {I : iterator σ α Out} {last : List α}
    {s s2 : σ} {it : List α} {L : List Out} (h : Run I last s it L s2) (body : β → Out → β) :
    ∀ (fuel : Nat) (acc : β), it.length < fuel →
      range_for I last body fuel s it acc = some (L.foldl body acc, s2) := by
  induction h with
  | stop s it h0 =>
    intro fuel acc hf
    cases fuel with
    | zero => omega
    | succ k => simp [range_for, h0]
  | step s s1 s2 it it1 v L h0 h1 h2 h3 _ ih =>
    intro fuel acc hf
    cases fuel with
    | zero => omega
    | succ k =>
      have hk : it1.length < k := by omega
      simp [range_for, h0, h1, h2, ih k (body acc v) hk]

theorem Run.count_loop_eq {σ α Out : Type} {I : iterator σ α Out} {last : List α}
    {s s2 : σ} {it : List α} {L : List Out} (h : Run I last s it L s2) :
    ∀ (fuel number : Nat), it.length < fuel →
      count_loop I last fuel s it number = some (number + L.length, s2) := by
  induction h with
  | stop s it h0 =>
    intro fuel number hf
    cases fuel with
    | zero => omega
    | succ k => simp [count_loop, h0]
  | step s s1 s2 it it1 v L h0 h1 h2 h3 _ ih =>
    intro fuel number hf
    cases fuel with
    | zero => omega
    | succ k =>
      have hk : it1.length < k := by omega
      simp [count_loop, h0, h2, ih k (number + 1) hk]
      omega

theorem foldl_push_back {T : Type} (L acc : List T) :
    List.foldl (fun proxy it => proxy ++ [it]) acc L = acc ++ L := by
  induction L generalizing acc with
  | nil => simp
  | cons v L ih => simp [ih]

theorem IState.enumerate_of_run {σB σ α B Out : Type} (st : IState σB σ α B Out)
    {L : List Out} {s2 : σ} (h : Run st.it st._end st.ctx st._begin L s2) :
    st.enumerate = some (L, s2) := by
  unfold IState.enumerate
  rw [h.range_for_eq _ _ _ (Nat.lt_succ_self _), foldl_push_back]
  simp

theorem walk_container {α : Type} (xs : List α) :
    Walk (container_iterator α) [] () xs xs := by
  induction xs with
  | nil => exact Walk.stop [] (by simp [container_iterator])
  | cons x rest ih =>
    exact Walk.step (x :: rest) rest x rest (by simp [container_iterator])
      (by simp [container_iterator]) (by simp [container_iterator]) (by simp) ih

theorem basic_eq {σ α Out : Type} (Base : iterator σ α Out) : iterator.basic Base = Base := rfl

theorem Walk.load {σ α B Out : Type} {Base : iterator σ α B} {last : List α} {s : σ}
    {it : List α} {L : List B} (h : Walk Base last s it L) (f : B → Out)
    (load : List α → Option Out)
    (hload : ∀ it v, Base.deref it = some v → load it = some (f v)) :
    Walk (iterator.load Base load) last s it (L.map f) := by
  induction h with
  | stop it h0 => exact Walk.stop it (by simpa [iterator.load] using h0)
  | step it it1 v L h0 h1 h2 h3 _ ih =>
    exact Walk.step it it1 (f v) (L.map f) (by simpa [iterator.load] using h0)
      (by simpa [iterator.load] using hload it v h1) (by simpa [iterator.load] using h2) h3 ih

theorem Take.incr_succ (m : Nat) (h : m + 1 < 2 ^ size_bits) : Take.incr (m + 1) = m := by
  unfold Take.incr
  have : m + 1 + 2 ^ size_bits - 1 = m + 2 ^ size_bits := by omega
  rw [this, Nat.add_mod_right, Nat.mod_eq_of_lt (by omega)]

theorem Walk.reach {σ α Out : Type} {Base : iterator σ α Out} {last : List α} {s : σ}
    {it : List α} {L : List Out} (h : Walk Base last s it L) :
    ∀ n : Nat, n < 2 ^ size_bits →
      Run (iterator.reach Base) last (n, s) it (L.take n) (n - min n L.length, s) := by
  induction h with
  | stop it h0 =>
    intro n _
    simpa using Run.stop (n, s) it (by simp [iterator.reach, h0])
  | step it it1 v L h0 h1 h2 h3 _ ih =>
    intro n hn
    cases n with
    | zero => simpa using Run.stop (0, s) it (by simp [iterator.reach, Take.reach])
    | succ m =>
      have hm : m < 2 ^ size_bits := by omega
      have hstep := Run.step (m + 1, s) (m, s) (m - min m L.length, s) it it1 v (L.take m)
        (by simp [iterator.reach, Take.reach, h0]) (by simpa [iterator.reach] using h1)
        (by simp [iterator.reach, h2, Take.incr_succ m hn]) h3 (ih m hm)
      have e : m + 1 - min (m + 1) (v :: L).length = m - min m L.length := by
        simp only [List.length_cons]
        omega
      rw [e]
      simpa using hstep

/-! ## Lemmas on filtering iterators over a container -/

theorem find_if_container {α : Type} (pred : α → Bool) :
    ∀ (fuel : Nat) (it : List α), it.length < fuel →
      find_if (container_iterator α) pred fuel () it []
        = some ((), it.dropWhile (fun x => !pred x)) := by
  intro fuel
  induction fuel with
  | zero => intro it h; omega
  | succ k ih =>
    intro it h
    cases it with
    | nil => simp [find_if, valid_range, container_iterator]
    | cons x rest =>
      have hk : rest.length < k := by simpa using h
      cases hp : pred x with
      | true => simp [find_if, valid_range, container_iterator, hp, List.dropWhile_cons]
      | false =>
        have := ih rest hk
        simp only [container_iterator] at this
        simp [find_if, valid_range, next_position, container_iterator, hp,
          List.dropWhile_cons, this]

theorem skip_invalid_container {α : Type} (p : α → Bool)
    (validate : Unit → List α → Option Bool)
    (hnil : validate () [] = some false)
    (hcons : ∀ x r, validate () (x :: r) = some (!p x)) :
    ∀ (fuel : Nat) (x : α) (rest : List α), rest.length < fuel →
      iterator.skip_invalid (container_iterator α) validate fuel () (x :: rest)
        = some ((), rest.dropWhile (fun y => !p y)) := by
  intro fuel
  induction fuel with
  | zero => intro x rest h; omega
  | succ k ih =>
    intro x rest h
    cases rest with
    | nil => simp [iterator.skip_invalid, container_iterator, hnil]
    | cons y r =>
      have hk : r.length < k := by simpa using h
      cases hp : p y with
      | true => simp [iterator.skip_invalid, container_iterator, hcons, hp, List.dropWhile_cons]
      | false =>
        have := ih y r hk
        simp only [container_iterator] at this
        simp [iterator.skip_invalid, container_iterator, hcons, hp, List.dropWhile_cons, this]

theorem dropWhile_length_le {α : Type} (q : α → Bool) (xs : List α) :
    (xs.dropWhile q).length ≤ xs.length := by
  induction xs with
  | nil => simp
  | cons x rest ih =>
    rw [List.dropWhile_cons]
    split
    · simp only [List.length_cons]; omega
    · exact Nat.le_refl _

/-- An iterator over a container that skips the elements failing `p` and reads through
`f` visits `(xs.filter p).map f` when started at the first element passing `p`. -/
theorem walk_skipping {α Out : Type} (I : iterator Unit α Out) (p : α → Bool) (f : α → Out)
    (validate : Unit → List α → Option Bool)
    (hnil : validate () [] = some false)
    (hcons : ∀ x r, validate () (x :: r) = some (!p x))
    (hneq : ∀ a b, I.neq () a b = (a.length != b.length))
    (hincr : ∀ it, I.incr () it
      = iterator.skip_invalid (container_iterator α) validate it.length () it)
    (hderef : ∀ x r, I.deref (x :: r) = some (f x)) :
    ∀ xs : List α, Walk I [] () (xs.dropWhile (fun x => !p x)) ((xs.filter p).map f) := by
  intro xs
  induction xs with
  | nil => exact Walk.stop [] (by simp [hneq])
  | cons x rest ih =>
    cases hp : p x with
    | true =>
      have e1 : (x :: rest).dropWhile (fun x => !p x) = x :: rest := by
        simp [List.dropWhile_cons, hp]
      have e2 : ((x :: rest).filter p).map f = f x :: (rest.filter p).map f := by
        simp [List.filter_cons, hp]
      rw [e1, e2]
      refine Walk.step (x :: rest) (rest.dropWhile (fun y => !p y)) (f x) _ (by simp [hneq])
        (hderef x rest) ?_ ?_ ih
      · rw [hincr]
        exact skip_invalid_container p validate hnil hcons _ x rest (by simp)
      · have := dropWhile_length_le (fun y => !p y) rest
        simp only [List.length_cons]
        omega
    | false =>
      have e1 : (x :: rest).dropWhile (fun x => !p x) = rest.dropWhile (fun x => !p x) := by
        simp [List.dropWhile_cons, hp]
      have e2 : ((x :: rest).filter p).map f = (rest.filter p).map f := by
        simp [List.filter_cons, hp]
      rw [e1, e2]
      exact ih

theorem dropWhile_and {α : Type} (p q : α → Bool) (xs : List α) :
    (xs.dropWhile (fun x => !p x)).dropWhile (fun x => !(p x && q x))
      = xs.dropWhile (fun x => !(p x && q x)) := by
  induction xs with
  | nil => simp
  | cons x rest ih =>
    cases hp : p x with
    | true => simp [List.dropWhile_cons, hp]
    | false => simpa [List.dropWhile_cons, hp] using ih

theorem filter_dropWhile {α : Type} (p : α → Bool) (xs : List α) :
    (xs.dropWhile (fun x => !p x)).filter p = xs.filter p := by
  induction xs with
  | nil => simp
  | cons x rest ih =>
    cases hp : p x <;> simp [List.dropWhile_cons, List.filter_cons, hp, ih]

theorem where_on_root {α : Type} (xs : List α) (p : α → Bool) :
    (from_ xs).toIState.where_ p
      = some { Iterator := container_iterator α, _begin := xs.dropWhile (fun x => !p x),
               _end := [], _filter := some p, ctx := () } := by
  simp [IState.where_, from_, From.toIState, find_if_container p _ xs (Nat.lt_succ_self _)]

theorem walk_where_stage {α : Type} (xs : List α) (p : α → Bool) (w : Where Unit α α)
    (hI : w.Iterator = container_iterator α) (hb : w._begin = xs.dropWhile (fun x => !p x))
    (he : w._end = []) (hf : w._filter = some p) :
    Walk w.toIState.it w.toIState._end w.toIState.ctx w.toIState._begin (xs.filter p) := by
  have h := walk_skipping (iterator.filter (container_iterator α) w.validate) p id w.validate
    (by simp [Where.validate, hI, he, container_iterator])
    (by intro x r; simp [Where.validate, hI, he, hf, container_iterator])
    (by intro a b; simp [iterator.filter, container_iterator])
    (by intro it; simp [iterator.filter])
    (by intro x r; simp [iterator.filter, container_iterator]) xs
  simpa [Where.toIState, hI, hb, he] using h

theorem walk_selectwhere_stage {α Out : Type} (xs : List α) (p : α → Bool) (f : α → Out)
    (st : SelectWhere Unit α α Out)
    (hI : st.Iterator = container_iterator α) (hb : st._begin = xs.dropWhile (fun x => !p x))
    (he : st._end = []) (hf : st._filter = some p) (hl : st._loader = some f) :
    Walk st.toIState.it st.toIState._end st.toIState.ctx st.toIState._begin
      ((xs.filter p).map f) := by
  have h := walk_skipping (iterator.full (container_iterator α) st.validate st.load) p f
    st.validate
    (by simp [SelectWhere.validate, hI, he, container_iterator])
    (by intro x r; simp [SelectWhere.validate, hI, he, hf, container_iterator])
    (by intro a b; simp [iterator.full, container_iterator])
    (by intro it; simp [iterator.full])
    (by intro x r; simp [iterator.full, SelectWhere.load, hI, hl, container_iterator]) xs
  simpa [SelectWhere.toIState, hI, hb, he] using h

/-! ## Enumerating the stages built over a container -/

theorem walk_from_stage {α : Type} (xs : List α) :
    Walk (from_ xs).toIState.it (from_ xs).toIState._end (from_ xs).toIState.ctx
      (from_ xs).toIState._begin xs :=
  walk_container xs

theorem enumerate_from_stage {α : Type} (xs : List α) :
    (from_ xs).toIState.enumerate = some (xs, ()) :=
  IState.enumerate_of_run _ (walk_from_stage xs).run

theorem where_on_where {α : Type} (w : Where Unit α α) (p : α → Bool)
    (hI : w.Iterator = container_iterator α) (he : w._end = []) (hf : w._filter = some p)
    (q : α → Bool) :
    w.where_ q
      = some { Iterator := container_iterator α,
               _begin := w._begin.dropWhile (fun x => !(p x && q x)),
               _end := [], _filter := none, ctx := () } := by
  simp [Where.where_, hI, he, hf,
    find_if_container (fun x => p x && q x) _ w._begin (Nat.lt_succ_self _)]

theorem Take.select_walk {α C : Type} (xs : List α) (n : Nat) (f : α → C) :
    Walk (((from_ xs).toIState.take n).toIState.select f).toIState.it
      (((from_ xs).toIState.take n).toIState.select f).toIState._end
      (((from_ xs).toIState.take n).toIState.select f).toIState.ctx
      (((from_ xs).toIState.take n).toIState.select f).toIState._begin (xs.map f) := by
  have h := (walk_container xs).load f
    (((from_ xs).toIState.take n).toIState.select f).load
    (by
      intro it v hv
      simp only [Select.load, IState.select, Take.toIState, IState.take, From.toIState,
        from_, iterator.basic]
      rw [hv])
  exact h

/-- The stage `S.Take(n).Select(f)` enumerates `f` of every element of `S`, whatever `n`:
`IState::select` rebuilds the range over `Base_It`, below the `reach` iterator. -/
theorem Take.select_enumerate {α C : Type} (xs : List α) (n : Nat) (f : α → C) :
    (((from_ xs).toIState.take n).toIState.select f).toIState.enumerate = some (xs.map f, ()) := by
  simpa using IState.enumerate_of_run _ (Take.select_walk xs n f).run

theorem Take.walk_from {α : Type} (xs : List α) (n c : Nat) (hc : c < 2 ^ size_bits) :
    Run ((from_ xs).toIState.take n).toIState.it ((from_ xs).toIState.take n).toIState._end
      (c, ()) ((from_ xs).toIState.take n).toIState._begin (xs.take c)
      (c - min c xs.length, ()) :=
  (walk_container xs).reach c hc

theorem fold_greater {T : Type} [LinearOrder T] (L : List T) :
    ∀ v : T, (L.foldl (fun val it => if it > val then it else val) v ∈ v :: L) ∧
      ∀ y ∈ v :: L, y ≤ L.foldl (fun val it => if it > val then it else val) v := by
  induction L with
  | nil => intro v; simp
  | cons x rest ih =>
    intro v
    simp only [List.foldl_cons]
    obtain ⟨hmem, hle⟩ := ih (if x > v then x else v)
    constructor
    · rcases List.mem_cons.1 hmem with h | h
      · rw [h]
        split <;> simp
      · simp [h]
    · intro y hy
      have hv : v ≤ if x > v then x else v := by
        split
        · exact le_of_lt (by assumption)
        · exact le_refl v
      have hx : x ≤ if x > v then x else v := by
        split
        · exact le_refl x
        · exact not_lt.1 (by assumption)
      have hbase := hle _ (List.mem_cons_self _ _)
      rcases List.mem_cons.1 hy with h | h
      · rw [h]; exact le_trans hv hbase
      · rcases List.mem_cons.1 h with h2 | h2
        · rw [h2]; exact le_trans hx hbase
        · exact hle y (List.mem_cons_of_mem _ h2)

theorem fold_smaller {T : Type} [LinearOrder T] (L : List T) :
    ∀ v : T, (L.foldl (fun val it => if it < val then it else val) v ∈ v :: L) ∧
      ∀ y ∈ v :: L, L.foldl (fun val it => if it < val then it else val) v ≤ y := by
  induction L with
  | nil => intro v; simp
  | cons x rest ih =>
    intro v
    simp only [List.foldl_cons]
    obtain ⟨hmem, hle⟩ := ih (if x < v then x else v)
    constructor
    · rcases List.mem_cons.1 hmem with h | h
      · rw [h]
        split <;> simp
      · simp [h]
    · intro y hy
      have hv : (if x < v then x else v) ≤ v := by
        split
        · exact le_of_lt (by assumption)
        · exact le_refl v
      have hx : (if x < v then x else v) ≤ x := by
        split
        · exact le_refl x
        · exact not_lt.1 (by assumption)
      have hbase := hle _ (List.mem_cons_self _ _)
      rcases List.mem_cons.1 hy with h | h
      · rw [h]; exact le_trans hbase hv
      · rcases List.mem_cons.1 h with h2 | h2
        · rw [h2]; exact le_trans hbase hx
        · exact hle y (List.mem_cons_of_mem _ h2)

/-- On a non-empty container `IState::min` returns an element that is greater than or
equal to every element. -/
theorem IState.min_is_greatest {T : Type} [LinearOrder T] (x : T) (xs : List T) :
    ∃ m, (from_ (x :: xs)).toIState.min = some (m, ()) ∧ m ∈ x :: xs ∧
      ∀ y ∈ x :: xs, y ≤ m := by
  refine ⟨(x :: xs).foldl (fun val it => if it > val then it else val) x, ?_, ?_, ?_⟩
  · have h := (walk_from_stage (x :: xs)).run.range_for_eq
      (fun val it => if it > val then it else val) ((x :: xs).length + 1) x
      (Nat.lt_succ_self _)
    simpa [IState.min, From.toIState, from_, iterator.basic, container_iterator] using h
  · have h := (fold_greater (x :: xs) x).1
    simpa using h
  · intro y hy
    exact (fold_greater (x :: xs) x).2 y (List.mem_cons_of_mem _ hy)

/-- On a non-empty container `IState::max` returns an element that is less than or
equal to every element. -/
theorem IState.max_is_least {T : Type} [LinearOrder T] (x : T) (xs : List T) :
    ∃ m, (from_ (x :: xs)).toIState.max = some (m, ()) ∧ m ∈ x :: xs ∧
      ∀ y ∈ x :: xs, m ≤ y := by
  refine ⟨(x :: xs).foldl (fun val it => if it < val then it else val) x, ?_, ?_, ?_⟩
  · have h := (walk_from_stage (x :: xs)).run.range_for_eq
      (fun val it => if it < val then it else val) ((x :: xs).length + 1) x
      (Nat.lt_succ_self _)
    simpa [IState.max, From.toIState, from_, iterator.basic, container_iterator] using h
  · have h := (fold_smaller (x :: xs) x).1
    simpa using h
  · intro y hy
    exact (fold_smaller (x :: xs) x).2 y (List.mem_cons_of_mem _ hy)

/-! ## Claims on `Take`, `Min`, `Max`, `Where` and `Select` -/

/-- C1 (code evaluated at the failing input): for `S = [1,2,3,4]`, `n = 2`, `f = x + 1`
the stage `S.Take(2).Select(f)` enumerates `[2,3,4,5]`, not `[2,3]`: the bound of
`Take` does not survive the `Select`. -/
theorem C1_take_select_drops_bound :
    (((from_ [1, 2, 3, 4]).toIState.take 2).toIState.select (fun x => x + 1)).toIState.enumerate
      = some ([2, 3, 4, 5], ()) := by
  decide

/-- C2 (code evaluated at the failing input): on `S = [1,2]` the member `min` returns `2`,
which is not less than or equal to the element `1`. -/
theorem C2_min_returns_greatest :
    (from_ [1, 2]).toIState.min = some (2, ()) ∧ ¬ (2 ≤ 1) := by
  decide

/-- C3 (code evaluated at the failing input): on `S = [1,2]` the member `max` returns `1`,
which is not greater than or equal to the element `2`. -/
theorem C3_max_returns_least :
    (from_ [1, 2]).toIState.max = some (1, ()) ∧ ¬ (1 ≥ 2) := by
  decide

/-- C6 (counterexample): a full enumeration of `[1,2,3,4].Take(2)` yields `[1,2]` and
leaves the stage with `number_ = 0` instead of `2`; a second full enumeration of that
same stage yields nothing, and `Count()` mutates the stage in the same way. -/
theorem C6_take_is_mutated :
    ((from_ [1, 2, 3, 4]).toIState.take 2).toIState.ctx = (2, ()) ∧
    ((from_ [1, 2, 3, 4]).toIState.take 2).toIState.enumerate = some ([1, 2], (0, ())) ∧
    (((from_ [1, 2, 3, 4]).toIState.take 2).toIState.after (0, ())).enumerate = some ([], (0, ())) ∧
    ((from_ [1, 2, 3, 4]).toIState.take 2).toIState.count = some (2, (0, ())) := by
  decide

/-- C6 (amended): a stage whose iterators reach no `Take` (context `Unit`) is the same
object after any operation, and a root stage enumerates the container each time and
counts its length; a fresh `S.Take(n)` is mutated by enumeration and by `Count()`: the
first enumeration yields the first `min n |S|` elements and leaves
`number_ = n - min n |S|`, from which the second enumeration of the same stage yields
the first `n - min n |S|` elements only. -/
theorem C6_stage_mutation {α : Type} (xs : List α) (n : Nat) (hn : n < 2 ^ size_bits) :
    (∀ {σB B Out : Type} (st : IState σB Unit α B Out) (s : Unit), st.after s = st) ∧
    (from_ xs).toIState.enumerate = some (xs, ()) ∧
    ((from_ xs).toIState.after ()).enumerate = some (xs, ()) ∧
    (from_ xs).toIState.count = some (xs.length, ()) ∧
    ((from_ xs).toIState.take n).toIState.enumerate
      = some (xs.take n, (n - min n xs.length, ())) ∧
    (((from_ xs).toIState.take n).toIState.after (n - min n xs.length, ())).enumerate
      = some (xs.take (n - min n xs.length),
          (n - min n xs.length - min (n - min n xs.length) xs.length, ())) ∧
    ((from_ xs).toIState.take n).toIState.count
      = some (min n xs.length, (n - min n xs.length, ())) := by
  refine ⟨fun st s => rfl, ?_, ?_, ?_, ?_, ?_, ?_⟩
  · exact enumerate_from_stage xs
  · exact enumerate_from_stage xs
  · have h := (walk_from_stage xs).run.count_loop_eq (xs.length + 1) 0 (Nat.lt_succ_self _)
    simpa [IState.count] using h
  · have h := IState.enumerate_of_run ((from_ xs).toIState.take n).toIState
      (Take.walk_from xs n n hn)
    simpa using h
  · have hc : n - min n xs.length < 2 ^ size_bits := by omega
    have h := IState.enumerate_of_run (((from_ xs).toIState.take n).toIState.after
      (n - min n xs.length, ())) (Take.walk_from xs n (n - min n xs.length) hc)
    simpa using h
  · have h := (Take.walk_from xs n n hn).count_loop_eq (xs.length + 1) 0 (Nat.lt_succ_self _)
    simpa [IState.count, List.length_take] using h

/-- C6 (amended), at `S = [1,2,3]` and `n = 5`. -/
theorem C6_stage_mutation_witness :
    ((from_ [1, 2, 3]).toIState.take 5).toIState.enumerate = some ([1, 2, 3], (2, ())) ∧
    (((from_ [1, 2, 3]).toIState.take 5).toIState.after (2, ())).enumerate
      = some ([1, 2], (0, ())) :=
  ⟨(C6_stage_mutation [1, 2, 3] 5 (by decide)).2.2.2.2.1,
   (C6_stage_mutation [1, 2, 3] 5 (by decide)).2.2.2.2.2.1⟩

/-- A `Where` stage over a container whose `_filter` refers to a destroyed closure can
be enumerated only when the filter is never consulted, that is when at most one element
is left from `_begin` on. -/
theorem enumerate_dead_filter {α : Type} (d : List α) :
    (Where.toIState { Iterator := container_iterator α, _begin := d, _end := [],
                      _filter := none, ctx := () }).enumerate
      = if d.length ≤ 1 then some (d, ()) else none := by
  match d with
  | [] => simp [IState.enumerate, range_for, Where.toIState, iterator.filter,
      container_iterator]
  | [x] => simp [IState.enumerate, range_for, Where.toIState, iterator.filter,
      iterator.skip_invalid, Where.validate, container_iterator]
  | x :: y :: r => simp [IState.enumerate, range_for, Where.toIState, iterator.filter,
      iterator.skip_invalid, Where.validate, container_iterator]

/-- What `S.Where(p).Where(q)` does for every `S`, `p`, `q`: `std::find_if` places
`_begin` at the first element satisfying both, and the enumeration is defined only when
nothing follows that element. -/
theorem where_where_enumerate {α : Type} (xs : List α) (p q : α → Bool) :
    ((from_ xs).toIState.where_ p).bind
        (fun w => (w.where_ q).bind (fun w2 => w2.toIState.enumerate))
      = if (xs.dropWhile (fun x => !(p x && q x))).length ≤ 1
        then some (xs.dropWhile (fun x => !(p x && q x)), ()) else none := by
  rw [where_on_root xs p]
  simp only [Option.bind]
  rw [where_on_where _ p rfl rfl rfl q]
  simp only
  rw [dropWhile_and p q xs]
  exact enumerate_dead_filter _

/-- C9 (code evaluated at the failing input): for `S = [5,3,5,1,2]`, `p = (x > 1)` and
`q = (x < 5)` the stage `S.Where(p).Where(q)` starts at the element `3` and holds its
filter as a reference to a closure that `Where::where` has destroyed; enumerating it has
to call that filter at the element `5` and is undefined, where the claim says the result
is `[3,2]`. -/
theorem C9_where_where_dead_filter :
    ((from_ [5, 3, 5, 1, 2]).toIState.where_ (fun x => decide (x > 1))).bind
        (fun w => (w.where_ (fun x => decide (x < 5))).map
          (fun w2 => (w2._begin, w2._filter.isSome)))
      = some ([3, 5, 1, 2], false) ∧
    ((from_ [5, 3, 5, 1, 2]).toIState.where_ (fun x => decide (x > 1))).bind
        (fun w => (w.where_ (fun x => decide (x < 5))).bind
          (fun w2 => w2.toIState.enumerate))
      = none := by
  decide

/-- C10: enumerating `S.Where(p).Select(f)` yields `f x` for exactly the elements `x` of
`S` that satisfy `p`, in the original order. -/
theorem C10_where_select {α C : Type} (xs : List α) (p : α → Bool) (f : α → C) :
    ((from_ xs).toIState.where_ p).bind (fun w => (w.select f).toIState.enumerate)
      = some ((xs.filter p).map f, ()) := by
  rw [where_on_root xs p]
  simp only [Option.bind]
  have h := IState.enumerate_of_run _
    (walk_selectwhere_stage xs p f
      { Iterator := container_iterator α,
        _begin := xs.dropWhile (fun x => !p x),
        _end := [], _filter := some p, _loader := some f, ctx := () } rfl rfl rfl rfl rfl).run
  simpa [Where.select] using h

/-! ## The comparator of `orderBy` -/

theorem order_by_less_irrefl {K : Type} [LinearOrder K] (t : order_type) (x : K) :
    order_by_less t x x = false := by
  cases t <;> simp [order_by_less]

theorem order_by_less_trans {K : Type} [LinearOrder K] (t : order_type) (x y z : K)
    (h1 : order_by_less t x y = true) (h2 : order_by_less t y z = true) :
    order_by_less t x z = true := by
  cases t
  · simp only [order_by_less, decide_eq_true_eq] at *
    exact lt_trans h1 h2
  · simp only [order_by_less, decide_eq_true_eq, gt_iff_lt] at *
    exact lt_trans h2 h1

theorem order_by_less_total {K : Type} [LinearOrder K] (t : order_type) (x y : K)
    (h1 : order_by_less t x y = false) (h2 : order_by_less t y x = false) : x = y := by
  cases t
  · simp only [order_by_less, decide_eq_false_iff_not, not_lt] at *
    exact le_antisymm h2 h1
  · simp only [order_by_less, decide_eq_false_iff_not, gt_iff_lt, not_lt] at *
    exact le_antisymm h1 h2

theorem order_by_less_asymm {K : Type} [LinearOrder K] (t : order_type) (x y : K)
    (h1 : order_by_less t x y = true) : order_by_less t y x = false := by
  cases t
  · simp only [order_by_less, decide_eq_true_eq, decide_eq_false_iff_not, not_lt] at *
    exact le_of_lt h1
  · simp only [order_by_less, decide_eq_true_eq, decide_eq_false_iff_not, gt_iff_lt,
      not_lt] at *
    exact le_of_lt h1

theorem order_by_less_negtrans {K : Type} [LinearOrder K] (t : order_type) (x y z : K)
    (h1 : order_by_less t x y = false) (h2 : order_by_less t y z = false) :
    order_by_less t x z = false := by
  cases t
  · simp only [order_by_less, decide_eq_false_iff_not, not_lt] at *
    exact le_trans h2 h1
  · simp only [order_by_less, decide_eq_false_iff_not, gt_iff_lt, not_lt] at *
    exact le_trans h1 h2

/-- The lexicographic order declared by any list of keys is a strict weak ordering. -/
theorem spec_lex_swo {In : Type} (keys : List (order_by_modifier_end In)) :
    strict_weak_order (fun a b => spec_lex_before a b keys) := by
  induction keys with
  | nil => exact ⟨fun _ => rfl, fun _ _ _ h => by simp [spec_lex_before] at h, fun _ _ _ _ _ => rfl⟩
  | cons k ks ih =>
    obtain ⟨hirr, htr, hneg⟩ := ih
    refine ⟨?_, ?_, ?_⟩
    · intro a
      simp only [spec_lex_before, order_by_less_irrefl, Bool.false_or, Bool.and_eq_false_imp]
      intro _
      exact hirr a
    · intro a b c hab hbc
      simp only [spec_lex_before, Bool.or_eq_true, Bool.and_eq_true, decide_eq_true_eq] at *
      rcases hab with h1 | ⟨e1, r1⟩
      · rcases hbc with h2 | ⟨e2, _⟩
        · exact Or.inl (order_by_less_trans _ _ _ _ h1 h2)
        · left; rw [← e2]; exact h1
      · rcases hbc with h2 | ⟨e2, r2⟩
        · left; rw [e1]; exact h2
        · exact Or.inr ⟨e1.trans e2, htr a b c r1 r2⟩
    · intro a b c hab hbc
      simp only [spec_lex_before, Bool.or_eq_false_iff, Bool.and_eq_false_imp,
        decide_eq_true_eq] at *
      obtain ⟨l1, r1⟩ := hab
      obtain ⟨l2, r2⟩ := hbc
      refine ⟨order_by_less_negtrans _ _ _ _ l1 l2, ?_⟩
      intro e
      have l3 : order_by_less k.type (k.key_ b) (k.key_ a) = false := by
        rw [e]; exact l2
      have e1 : k.key_ a = k.key_ b := order_by_less_total _ _ _ l1 l3
      have e2 : k.key_ b = k.key_ c := by rw [← e1, e]
      exact hneg a b c (r1 e1) (r2 e2)

theorem order_by_one_key {In : Type} (a b : In) (key : order_by_modifier_end In) :
    order_by a b key [] = spec_lex_before a b [key] := by
  simp [order_by, spec_lex_before]

theorem order_by_two_keys {In : Type} (a b : In) (key key2 : order_by_modifier_end In) :
    order_by a b key [key2] = spec_lex_before a b [key, key2] := by
  simp [order_by, order_by_next, spec_lex_before]

theorem order_by_eq_spec {In : Type} (key : order_by_modifier_end In)
    (keys : List (order_by_modifier_end In)) (hk : keys.length ≤ 1) :
    (fun a b => order_by a b key keys) = (fun a b => spec_lex_before a b (key :: keys)) := by
  funext a b
  match keys, hk with
  | [], _ => exact order_by_one_key a b key
  | [key2], _ => exact order_by_two_keys a b key key2
  | _ :: _ :: _, h => simp at h

theorem insertion_sort_contract {T : Type} : sort_contract (@insertion_sort T) := by
  intro comp v hswo
  obtain ⟨hirr, htr, hneg⟩ := hswo
  have htotal : IsTotal T (fun x y => comp y x = false) := by
    constructor
    intro x y
    by_cases h : comp y x = true
    · right
      by_contra h2
      have h3 : comp x y = true := by simpa using h2
      have := htr y x y h h3
      rw [hirr y] at this
      exact Bool.false_ne_true this
    · left; simpa using h
  have htrans : IsTrans T (fun x y => comp y x = false) := by
    constructor
    intro x y z hxy hyz
    exact hneg z y x hyz hxy
  constructor
  · exact List.perm_insertionSort _ v
  · exact List.sorted_insertionSort _ v

theorem IState.orderBy_container {α : Type} (sort : (α → α → Bool) → List α → List α)
    (xs : List α) (key : order_by_modifier_end α) (keys : List (order_by_modifier_end α)) :
    (from_ xs).toIState.orderBy sort key keys
      = some ({ Iterator := container_iterator α,
                _begin := sort (fun a b => order_by a b key keys) xs, _end := [],
                proxy_ := sort (fun a b => order_by a b key keys) xs }, ()) := by
  have h := (walk_from_stage xs).run.range_for_eq (fun proxy it => proxy ++ [it])
    _ [] (Nat.lt_succ_self _)
  have e : List.foldl (fun proxy it => proxy ++ [it]) [] xs = xs := by
    have : ∀ (L acc : List α), List.foldl (fun proxy it => proxy ++ [it]) acc L = acc ++ L := by
      intro L
      induction L with
      | nil => simp
      | cons v L ih => intro acc; simp [ih]
    simpa using this xs []
  rw [e] at h
  unfold IState.orderBy
  rw [h]

theorem enumerate_orderby_stage {Out : Type} (v : List Out) :
    (OrderBy.toIState { Iterator := container_iterator Out, _begin := v, _end := [],
                        proxy_ := v }).enumerate = some (v, ()) := by
  have h := IState.enumerate_of_run
    (OrderBy.toIState { Iterator := container_iterator Out, _begin := v, _end := [],
                        proxy_ := v }) (walk_container v).run
  simpa using h

theorem IState.orderBy_of_run {σB σ α B Out : Type}
    (sort : (Out → Out → Bool) → List Out → List Out) (st : IState σB σ α B Out)
    {L : List Out} {s2 : σ} (h : Run st.it st._end st.ctx st._begin L s2)
    (key : order_by_modifier_end Out) (keys : List (order_by_modifier_end Out)) :
    st.orderBy sort key keys
      = some ({ Iterator := container_iterator Out,
                _begin := sort (fun a b => order_by a b key keys) L, _end := [],
                proxy_ := sort (fun a b => order_by a b key keys) L }, s2) := by
  have h1 := h.range_for_eq (fun proxy it => proxy ++ [it]) _ [] (Nat.lt_succ_self _)
  rw [foldl_push_back] at h1
  unfold IState.orderBy
  rw [h1]
  simp

/-- Under the single key `asc(identity)` on natural numbers, a sort that meets the
contract returns the one ascending rearrangement of its input. -/
theorem sort_asc_id_unique (sort : (Nat → Nat → Bool) → List Nat → List Nat)
    (hsort : sort_contract sort) (v w : List Nat) (hperm : w.Perm v)
    (hsorted : w.Sorted (fun x y => x ≤ y)) :
    sort (fun a b => order_by a b (asc id) []) v = w := by
  have hswo : strict_weak_order (fun a b : Nat => order_by a b (asc id) []) := by
    rw [order_by_eq_spec (asc id) [] (by simp)]
    exact spec_lex_swo [asc id]
  obtain ⟨hp, hs⟩ := hsort _ v hswo
  have hs2 : (sort (fun a b => order_by a b (asc id) []) v).Sorted (fun x y => x ≤ y) := by
    refine hs.imp ?_
    intro x y hxy
    simpa [order_by, order_by_less, asc] using hxy
  exact List.eq_of_perm_of_sorted (hp.trans hperm.symm) hs2 hsorted

/-! ## Claims on `OrderBy` -/

/-- C5 (code evaluated at the failing input): with the three ascending keys "first",
"second", "third" of a triple, `order_by` puts `(1,0,0)` before `(0,0,1)` although the
first key already orders them the other way round, so the lexicographic order declared by
the keys does not put it before; `order_by` also puts `(0,0,1)` before `(1,0,0)`. -/
theorem C5_order_by_three_keys :
    order_by ((1 : Nat), (0 : Nat), (0 : Nat)) (0, 0, 1)
        (asc (fun t => t.1)) [asc (fun t => t.2.1), asc (fun t => t.2.2)] = true ∧
    spec_lex_before ((1 : Nat), (0 : Nat), (0 : Nat)) (0, 0, 1)
        [asc (fun t => t.1), asc (fun t => t.2.1), asc (fun t => t.2.2)] = false ∧
    order_by ((0 : Nat), (0 : Nat), (1 : Nat)) (1, 0, 0)
        (asc (fun t => t.1)) [asc (fun t => t.2.1), asc (fun t => t.2.2)] = true := by
  decide

/-- C7: for every `std::sort` that meets the contract of the standard and every list of
one or two keys, `S.OrderBy(keys)` enumerates a permutation of `S` in which, for every
adjacent pair `(x, y)`, `y` does not come strictly before `x` in the lexicographic order
the keys declare. -/
theorem C7_orderBy_sorted_perm {α : Type} (sort : (α → α → Bool) → List α → List α)
    (hsort : sort_contract sort) (xs : List α) (key : order_by_modifier_end α)
    (keys : List (order_by_modifier_end α)) (hk : keys.length ≤ 1) :
    ((from_ xs).toIState.orderBy sort key keys).bind (fun r => r.1.toIState.enumerate)
        = some (sort (fun a b => order_by a b key keys) xs, ()) ∧
      (sort (fun a b => order_by a b key keys) xs).Perm xs ∧
      (sort (fun a b => order_by a b key keys) xs).Chain'
        (fun x y => spec_lex_before y x (key :: keys) = false) := by
  refine ⟨?_, ?_, ?_⟩
  · rw [IState.orderBy_container]
    simp only [Option.bind]
    exact enumerate_orderby_stage _
  · have hswo : strict_weak_order (fun a b => order_by a b key keys) := by
      rw [order_by_eq_spec key keys hk]
      exact spec_lex_swo (key :: keys)
    exact (hsort _ xs hswo).1
  · have hswo : strict_weak_order (fun a b => order_by a b key keys) := by
      rw [order_by_eq_spec key keys hk]
      exact spec_lex_swo (key :: keys)
    have h := (hsort _ xs hswo).2
    have e : ∀ a b, order_by a b key keys = spec_lex_before a b (key :: keys) :=
      fun a b => congrFun (congrFun (order_by_eq_spec key keys hk) a) b
    refine List.Pairwise.chain' (h.imp ?_)
    intro x y hxy
    rw [← e]
    exact hxy

/-- C7, at `std::sort` = insertion sort, `S = [10,6,10,4]` and the single key
`asc(identity)`. -/
theorem C7_orderBy_sorted_perm_witness :
    ((from_ [10, 6, 10, 4]).toIState.orderBy insertion_sort (asc id) []).bind
        (fun r => r.1.toIState.enumerate)
        = some (insertion_sort (fun a b => order_by a b (asc id) []) [10, 6, 10, 4], ()) ∧
      (insertion_sort (fun a b => order_by a b (asc id) []) [10, 6, 10, 4]).Perm
        [10, 6, 10, 4] ∧
      (insertion_sort (fun a b => order_by a b (asc id) []) [10, 6, 10, 4]).Chain'
        (fun x y => spec_lex_before y x [asc id] = false) :=
  C7_orderBy_sorted_perm insertion_sort insertion_sort_contract [10, 6, 10, 4] (asc id) []
    (by decide)

/-- Scenario A of the specification, for every `std::sort` that meets the contract:
`[5,3,5,1,2].Where(x > 1).Select(x * 2).OrderBy(asc(identity))` enumerates
`[4,6,10,10]`. -/
theorem scenario_A (sort : (Nat → Nat → Bool) → List Nat → List Nat)
    (hsort : sort_contract sort) :
    ((from_ [5, 3, 5, 1, 2]).toIState.where_ (fun x => decide (x > 1))).bind
        (fun w => ((w.select (fun x => x * 2)).toIState.orderBy sort (asc id) []).bind
          (fun r => r.1.toIState.enumerate))
      = some ([4, 6, 10, 10], ()) := by
  rw [where_on_root]
  simp only [Option.bind]
  have hw := walk_selectwhere_stage [5, 3, 5, 1, 2] (fun x => decide (x > 1))
    (fun x => x * 2)
    { Iterator := container_iterator Nat,
      _begin := [5, 3, 5, 1, 2].dropWhile (fun x => !decide (x > 1)),
      _end := [], _filter := some (fun x => decide (x > 1)),
      _loader := some (fun x => x * 2), ctx := () }
    rfl rfl rfl rfl rfl
  have ho := IState.orderBy_of_run sort _ hw.run (asc id) []
  have hl : List.map (fun x => x * 2) (List.filter (fun x => decide (x > 1)) [5, 3, 5, 1, 2])
      = [10, 6, 10, 4] := by decide
  rw [hl, sort_asc_id_unique sort hsort [10, 6, 10, 4] [4, 6, 10, 10] (by decide)
    (by decide)] at ho
  simp only [Where.select]
  rw [ho]
  exact enumerate_orderby_stage _

theorem scenario_A_witness :
    ((from_ [5, 3, 5, 1, 2]).toIState.where_ (fun x => decide (x > 1))).bind
        (fun w => ((w.select (fun x => x * 2)).toIState.orderBy insertion_sort
          (asc id) []).bind (fun r => r.1.toIState.enumerate))
      = some ([4, 6, 10, 10], ()) :=
  scenario_A insertion_sort insertion_sort_contract

/-! ## Lemmas on grouping -/

theorem map_type.find_none_iff {K V : Type} [DecidableEq K] (m : map_type K V) (k : K) :
    map_type.find m k = none ↔ k ∉ m.map Prod.fst := by
  induction m with
  | nil => simp [map_type.find]
  | cons e rest ih =>
    obtain ⟨k0, v0⟩ := e
    by_cases h : k0 = k
    · simp [map_type.find, h]
    · have h2 : ¬ k = k0 := fun e => h e.symm
      simp [map_type.find, h, h2, ih]

theorem map_type.find_append {K V : Type} [DecidableEq K] (m : map_type K V) (k k2 : K)
    (v : V) :
    map_type.find (m ++ [(k, v)]) k2
      = match map_type.find m k2 with
        | some w => some w
        | none => if k = k2 then some v else none := by
  induction m with
  | nil => simp [map_type.find]
  | cons e rest ih =>
    obtain ⟨k0, v0⟩ := e
    by_cases h : k0 = k2
    · simp [map_type.find, h]
    · simp [map_type.find, h, ih]

theorem map_type.find_assign {K V : Type} [DecidableEq K] (m : map_type K V) (k k2 : K)
    (v : V) :
    map_type.find (map_type.assign m k v) k2
      = if k2 = k then (map_type.find m k).map (fun _ => v) else map_type.find m k2 := by
  induction m with
  | nil => simp [map_type.find, map_type.assign]
  | cons e rest ih =>
    obtain ⟨k0, v0⟩ := e
    by_cases h : k0 = k
    · by_cases h2 : k2 = k
      · simp [map_type.find, map_type.assign, h, h2]
      · have h3 : ¬ k = k2 := fun e => h2 e.symm
        simp [map_type.find, map_type.assign, h, h2, h3]
    · by_cases h2 : k2 = k
      · have h3 : ¬ k0 = k2 := by rw [h2]; exact h
        simp only [map_type.find, map_type.assign, h, h2, if_false, if_true] at ih ⊢
        exact ih
      · by_cases h4 : k0 = k2
        · simp [map_type.find, map_type.assign, h, h2, h4]
        · simp only [map_type.find, map_type.assign, h, h2, h4, if_false] at ih ⊢
          exact ih

theorem map_type.keys_assign {K V : Type} [DecidableEq K] (m : map_type K V) (k : K) (v : V) :
    (map_type.assign m k v).map Prod.fst = m.map Prod.fst := by
  induction m with
  | nil => simp [map_type.assign]
  | cons e rest ih =>
    obtain ⟨k0, v0⟩ := e
    by_cases h : k0 = k
    · simp [map_type.assign, h]
    · simp [map_type.assign, h, ih]

theorem map_type.assign_absent {K V : Type} [DecidableEq K] (m : map_type K V) (k : K) (v : V)
    (h : map_type.find m k = none) : map_type.assign m k v = m := by
  induction m with
  | nil => simp [map_type.assign]
  | cons e rest ih =>
    obtain ⟨k0, v0⟩ := e
    by_cases h2 : k0 = k
    · simp [map_type.find, h2] at h
    · simp only [map_type.find, h2, if_false] at h
      simp [map_type.assign, h2, ih h]

theorem map_type.flatten_assign {K In : Type} [DecidableEq K] (m : map_type K (List In))
    (k : K) (v : List In) (x : In) (h : map_type.find m k = some v) :
    ((map_type.assign m k (v ++ [x])).map Prod.snd).flatten.Perm
      (x :: (m.map Prod.snd).flatten) := by
  induction m with
  | nil => simp [map_type.find] at h
  | cons e rest ih =>
    obtain ⟨k0, v0⟩ := e
    by_cases h2 : k0 = k
    · simp only [map_type.find, h2, if_true, Option.some.injEq] at h
      simp only [map_type.assign, h2, if_true, List.map_cons, List.flatten_cons, h]
      rw [List.append_assoc]
      exact List.perm_middle
    · simp only [map_type.find, h2, if_false] at h
      simp only [map_type.assign, h2, if_false, List.map_cons, List.flatten_cons]
      exact ((ih h).append_left v0).trans List.perm_middle

/-- What one `emplace` does to the association. -/
theorem group_by.emplace_eq {In K : Type} [DecidableEq K] (m : map_type K (List In)) (x : In)
    (key : In → K) :
    group_by.emplace m x key
      = match map_type.find m (key x) with
        | some v => map_type.assign m (key x) (v ++ [x])
        | none => m ++ [(key x, [x])] := by
  unfold group_by.emplace map_type.index group_by.emplace_back
  cases h : map_type.find m (key x) with
  | some v => simp
  | none =>
    simp only
    have : ∀ (m2 : map_type K (List In)), map_type.find m2 (key x) = none →
        map_type.assign (m2 ++ [(key x, [])]) (key x) ([] ++ [x]) = m2 ++ [(key x, [x])] := by
      intro m2
      induction m2 with
      | nil => intro _; simp [map_type.assign]
      | cons e rest ih =>
        obtain ⟨k0, v0⟩ := e
        intro h0
        by_cases h2 : k0 = key x
        · simp [map_type.find, h2] at h0
        · simp only [map_type.find, h2, if_false] at h0
          simpa [map_type.assign, h2] using ih h0
    exact this m h

theorem group_by.find_emplace {In K : Type} [DecidableEq K] (m : map_type K (List In)) (x : In)
    (key : In → K) (k : K) :
    map_type.find (group_by.emplace m x key) k
      = if k = key x then some ((map_type.find m k).getD [] ++ [x]) else map_type.find m k := by
  rw [group_by.emplace_eq]
  cases h : map_type.find m (key x) with
  | some v =>
    simp only
    rw [map_type.find_assign]
    by_cases h2 : k = key x
    · simp [h2, h]
    · simp [h2]
  | none =>
    simp only
    rw [map_type.find_append]
    by_cases h2 : k = key x
    · simp [h2, h]
    · have h3 : ¬ key x = k := fun e => h2 e.symm
      cases h4 : map_type.find m k <;> simp [h2, h3]

theorem group_by.keys_emplace {In K : Type} [DecidableEq K] (m : map_type K (List In)) (x : In)
    (key : In → K) (hnd : (m.map Prod.fst).Nodup) :
    ((group_by.emplace m x key).map Prod.fst).Nodup ∧
      ∀ k, k ∈ (group_by.emplace m x key).map Prod.fst ↔ k ∈ m.map Prod.fst ∨ k = key x := by
  rw [group_by.emplace_eq]
  cases h : map_type.find m (key x) with
  | some v =>
    simp only
    rw [map_type.keys_assign]
    refine ⟨hnd, fun k => ⟨Or.inl, ?_⟩⟩
    rintro (h1 | h1)
    · exact h1
    · rw [h1]
      by_contra hc
      rw [(map_type.find_none_iff m (key x)).2 hc] at h
      exact Option.noConfusion h
  | none =>
    simp only
    have hnot := (map_type.find_none_iff m (key x)).1 h
    constructor
    · rw [List.map_append]
      refine List.Nodup.append hnd (by simp) ?_
      simpa using hnot
    · intro k
      simp

theorem group_by.flatten_emplace {In K : Type} [DecidableEq K] (m : map_type K (List In))
    (x : In) (key : In → K) :
    ((group_by.emplace m x key).map Prod.snd).flatten.Perm
      ((m.map Prod.snd).flatten ++ [x]) := by
  rw [group_by.emplace_eq]
  cases h : map_type.find m (key x) with
  | some v =>
    simp only
    exact (map_type.flatten_assign m (key x) v x h).trans
      (List.perm_append_singleton x _).symm
  | none => simp

theorem group_by.fold_keys {In K : Type} [DecidableEq K] (key : In → K) (xs : List In) :
    ∀ m : map_type K (List In), (m.map Prod.fst).Nodup →
      ((xs.foldl (fun result it => group_by.emplace result it key) m).map Prod.fst).Nodup ∧
      ∀ k, k ∈ (xs.foldl (fun result it => group_by.emplace result it key) m).map Prod.fst
        ↔ k ∈ m.map Prod.fst ∨ k ∈ xs.map key := by
  induction xs with
  | nil => intro m hnd; simpa using hnd
  | cons x rest ih =>
    intro m hnd
    obtain ⟨h1, h2⟩ := group_by.keys_emplace m x key hnd
    obtain ⟨h3, h4⟩ := ih (group_by.emplace m x key) h1
    refine ⟨h3, fun k => ?_⟩
    simp only [List.foldl_cons, List.map_cons, List.mem_cons]
    rw [h4 k, h2 k]
    tauto

theorem group_by.fold_find {In K : Type} [DecidableEq K] (key : In → K) (xs : List In)
    (k : K) :
    ∀ m : map_type K (List In),
      map_type.find (xs.foldl (fun result it => group_by.emplace result it key) m) k
        = match map_type.find m k with
          | some v => some (v ++ xs.filter (fun x => decide (key x = k)))
          | none =>
            if k ∈ xs.map key then some (xs.filter (fun x => decide (key x = k))) else none := by
  induction xs with
  | nil =>
    intro m
    cases h : map_type.find m k <;> simp [h]
  | cons x rest ih =>
    intro m
    simp only [List.foldl_cons]
    rw [ih (group_by.emplace m x key), group_by.find_emplace]
    by_cases h : k = key x
    · have h2 : key x = k := h.symm
      cases h3 : map_type.find m k <;> simp [h, h3, List.filter_cons]
    · have h2 : ¬ key x = k := fun e => h e.symm
      cases h3 : map_type.find m k <;> simp [h, h2, h3, List.filter_cons]

theorem group_by.fold_flatten {In K : Type} [DecidableEq K] (key : In → K) (xs : List In) :
    ∀ m : map_type K (List In),
      ((xs.foldl (fun result it => group_by.emplace result it key) m).map Prod.snd).flatten.Perm
        ((m.map Prod.snd).flatten ++ xs) := by
  induction xs with
  | nil => intro m; simp
  | cons x rest ih =>
    intro m
    simp only [List.foldl_cons]
    refine (ih (group_by.emplace m x key)).trans ?_
    have h := (group_by.flatten_emplace m x key).append_right rest
    simpa using h

theorem IState.groupBy_container {α K : Type} [DecidableEq K] (xs : List α) (key : α → K) :
    (from_ xs).toIState.groupBy key
      = some ({ Iterator := container_iterator (K × List α),
                _begin := xs.foldl (fun result it => group_by.emplace result it key) [],
                _end := [],
                proxy_ := xs.foldl (fun result it => group_by.emplace result it key) [] },
              ()) := by
  have h := (walk_from_stage xs).run.range_for_eq
    (fun result it => group_by.emplace result it key) _ [] (Nat.lt_succ_self _)
  unfold IState.groupBy
  rw [h]

/-! ## Claims on `GroupBy` -/

/-- C8: `S.GroupBy(key)` returns an association whose keys are distinct and are exactly
the values `key x` for `x` in `S`; the bucket found under `k` is the subsequence of `S` of
the elements with `key x = k`, in the original order, and no bucket is found under any
other `k`; an element lies in the bucket under `k` exactly when `k` is its key, and the
buckets together are a rearrangement of `S`. -/
theorem C8_groupBy {α K : Type} [DecidableEq K] (xs : List α) (key : α → K) :
    ∃ g, (from_ xs).toIState.groupBy key = some (g, ()) ∧
      (g.proxy_.map Prod.fst).Nodup ∧
      (∀ k, k ∈ g.proxy_.map Prod.fst ↔ ∃ x ∈ xs, key x = k) ∧
      (∀ k, map_type.find g.proxy_ k
        = if k ∈ xs.map key then some (xs.filter (fun x => decide (key x = k))) else none) ∧
      (∀ x ∈ xs, ∀ k, (∃ b, map_type.find g.proxy_ k = some b ∧ x ∈ b) ↔ k = key x) ∧
      (g.proxy_.map Prod.snd).flatten.Perm xs := by
  refine ⟨_, IState.groupBy_container xs key, ?_, ?_, ?_, ?_, ?_⟩
  · exact (group_by.fold_keys key xs [] (by simp)).1
  · intro k
    rw [(group_by.fold_keys key xs [] (by simp)).2 k]
    simp
  · intro k
    simpa [map_type.find] using group_by.fold_find key xs k []
  · intro x hx k
    have h := group_by.fold_find key xs k []
    simp only [map_type.find] at h
    simp only
    rw [h]
    constructor
    · rintro ⟨b, hb, hxb⟩
      by_cases hk : k ∈ xs.map key
      · simp only [hk, if_true, Option.some.injEq] at hb
        rw [← hb] at hxb
        have hkx : key x = k := by simpa using (List.mem_filter.1 hxb).2
        exact hkx.symm
      · simp [hk] at hb
    · intro hk
      have hmem : k ∈ xs.map key := by
        rw [hk]
        exact List.mem_map_of_mem key hx
      refine ⟨xs.filter (fun x => decide (key x = k)), by simp [hmem], ?_⟩
      exact List.mem_filter.2 ⟨hx, by simp [hk]⟩
  · simpa using group_by.fold_flatten key xs []

/-- Scenario B of the specification: `[(a,1),(b,2),(a,3)]` grouped by the first
component is `a -> [(a,1),(a,3)]`, `b -> [(b,2)]`. -/
theorem scenario_B :
    ((from_ [("a", 1), ("b", 2), ("a", 3)]).toIState.groupBy (fun e => e.1)).map
        (fun r => r.1.proxy_)
      = some [("a", [("a", 1), ("a", 3)]), ("b", [("b", 2)])] := by
  decide

/-- C4 (counterexample): in the grouping of `[(1,10)]` by the first component, the lookup
of the absent key `2` returns an empty bucket instead of failing, and afterwards the
association holds the new entry `(2, [])`. -/
theorem C4_lookup_inserts_bucket :
    ((from_ [((1 : Nat), (10 : Nat))]).toIState.groupBy (fun e => e.1)).map
        (fun r => (r.1.proxy_, (r.1.index 2).1, (r.1.index 2).2.proxy_))
      = some ([(1, [(1, 10)])], [], [(1, [(1, 10)]), (2, [])]) := by
  rfl

/-- C4 (amended): when `k` is the key of no element of the grouped input, the lookup
`G[k]` returns the empty bucket and leaves the association with the one further entry
`(k, [])`; the buckets found under the other keys are unchanged. -/
theorem C4_lookup_absent_key {α K : Type} [DecidableEq K] (xs : List α) (key : α → K) (k : K)
    (habsent : ∀ x ∈ xs, key x ≠ k) :
    ∃ g, (from_ xs).toIState.groupBy key = some (g, ()) ∧
      map_type.find g.proxy_ k = none ∧
      (g.index k).1 = [] ∧
      (g.index k).2.proxy_ = g.proxy_ ++ [(k, [])] ∧
      map_type.find (g.index k).2.proxy_ k = some [] ∧
      ∀ k2, k2 ≠ k → map_type.find (g.index k).2.proxy_ k2 = map_type.find g.proxy_ k2 := by
  have hnot : k ∉ xs.map key := by
    intro h
    obtain ⟨x, hx, e⟩ := List.mem_map.1 h
    exact habsent x hx e
  have hfind : map_type.find
      (xs.foldl (fun result it => group_by.emplace result it key) []) k = none := by
    have h := group_by.fold_find key xs k []
    simpa [map_type.find, hnot] using h
  refine ⟨_, IState.groupBy_container xs key, hfind, ?_, ?_, ?_, ?_⟩
  · simp [GroupBy.index, map_type.index, hfind]
  · simp [GroupBy.index, map_type.index, hfind]
  · simp [GroupBy.index, map_type.index, hfind, map_type.find_append]
  · intro k2 hk2
    have h3 : ¬ k = k2 := fun e => hk2 e.symm
    simp only [GroupBy.index, map_type.index, hfind, map_type.find_append]
    cases h4 : map_type.find
      (xs.foldl (fun result it => group_by.emplace result it key) []) k2 <;> simp [h3]

/-- C4 (amended), at the grouping of `[(1,10)]` by the first component and `k = 2`. -/
theorem C4_lookup_absent_key_witness :
    ∃ g, (from_ [((1 : Nat), (10 : Nat))]).toIState.groupBy (fun e => e.1) = some (g, ()) ∧
      map_type.find g.proxy_ 2 = none ∧
      (g.index 2).1 = [] ∧
      (g.index 2).2.proxy_ = g.proxy_ ++ [(2, [])] ∧
      map_type.find (g.index 2).2.proxy_ 2 = some [] ∧
      ∀ k2, k2 ≠ 2 → map_type.find (g.index 2).2.proxy_ k2 = map_type.find g.proxy_ k2 :=
  C4_lookup_absent_key [((1 : Nat), (10 : Nat))] (fun e => e.1) 2 (by decide)

/-! ## Lemmas on `Select` stages -/

theorem walk_select_stage {α C : Type} (xs : List α) (f : α → C) (st : Select Unit α α C)
    (hI : st.Iterator = container_iterator α) (hb : st._begin = xs) (he : st._end = [])
    (hl : st._loader = some f) :
    Walk st.toIState.it st.toIState._end st.toIState.ctx st.toIState._begin (xs.map f) := by
  have h := (walk_container xs).load f st.load
    (by
      intro it v hv
      simp only [Select.load, hI, hl]
      rw [hv])
  simpa [Select.toIState, hI, hb, he] using h

theorem where_on_select {α C : Type} (st : Select Unit α α C) (f : α → C)
    (hI : st.Iterator = container_iterator α) (he : st._end = [])
    (hl : st._loader = some f) (g : C → Bool) :
    st.where_ g
      = some { Iterator := container_iterator α,
               _begin := st._begin.dropWhile (fun x => !g (f x)),
               _end := [], _filter := none, _loader := some f, ctx := () } := by
  simp [Select.where_, hI, he, hl,
    find_if_container (fun x => g (f x)) _ st._begin (Nat.lt_succ_self _)]

/-- A `SelectWhere` stage over a container whose `_filter` refers to a destroyed closure
can be enumerated only when at most one element is left from `_begin` on. -/
theorem enumerate_dead_fused_filter {α C : Type} (d : List α) (f : α → C) :
    (SelectWhere.toIState { Iterator := container_iterator α, _begin := d, _end := [],
                            _filter := none, _loader := some f, ctx := () }).enumerate
      = if d.length ≤ 1 then some (d.map f, ()) else none := by
  match d with
  | [] => simp [IState.enumerate, range_for, SelectWhere.toIState, iterator.full,
      container_iterator]
  | [x] => simp [IState.enumerate, range_for, SelectWhere.toIState, iterator.full,
      iterator.skip_invalid, SelectWhere.validate, SelectWhere.load, container_iterator]
  | x :: y :: r => simp [IState.enumerate, range_for, SelectWhere.toIState, iterator.full,
      iterator.skip_invalid, SelectWhere.validate, SelectWhere.load, container_iterator]

/-- A `Select` stage over a container whose `_loader` refers to a destroyed closure can
be enumerated only when its range is empty. -/
theorem enumerate_dead_loader {α C : Type} (d : List α) :
    (Select.toIState { Iterator := container_iterator α, _begin := d, _end := [],
                       _loader := (none : Option (α → C)), ctx := () }).enumerate
      = if d.length = 0 then some ([], ()) else none := by
  match d with
  | [] => simp [IState.enumerate, range_for, Select.toIState, iterator.load,
      container_iterator]
  | x :: r => simp [IState.enumerate, range_for, Select.toIState, iterator.load,
      Select.load, container_iterator]

/-! ## Claims on `Select` -/

/-- What `S.Select(f).Where(g)` does for every `S`, `f`, `g`: `std::find_if` places
`_begin` at the first `x` with `g (f x)`, and the enumeration is defined only when
nothing follows that element. -/
theorem select_where_enumerate {α C : Type} (xs : List α) (f : α → C) (g : C → Bool) :
    (((from_ xs).toIState.select f).where_ g).bind (fun w => w.toIState.enumerate)
      = if (xs.dropWhile (fun x => !g (f x))).length ≤ 1
        then some ((xs.dropWhile (fun x => !g (f x))).map f, ()) else none := by
  rw [where_on_select _ f rfl rfl rfl g]
  simp only [Option.bind]
  exact enumerate_dead_fused_filter _ f

/-- C11 (code evaluated at the failing input): for `S = [1,2,3]`, `f = x + 1` and
`g = (y > 2)` the stage `S.Select(f).Where(g)` starts at the element `2` and holds its
filter as a reference to a closure that `Select::where` has destroyed; enumerating it
has to call that filter at the element `3` and is undefined, where the claim says the
result is `[3,4]`. -/
theorem C11_select_where_dead_filter :
    (((from_ [1, 2, 3]).toIState.select (fun x => x + 1)).where_
        (fun y => decide (y > 2))).map (fun w => (w._begin, w._filter.isSome))
      = some ([2, 3], false) ∧
    (((from_ [1, 2, 3]).toIState.select (fun x => x + 1)).where_
        (fun y => decide (y > 2))).bind (fun w => w.toIState.enumerate)
      = none := by
  decide

/-- What `S.Select(f).Select(g)` does for every `S`, `f`, `g`: the stage holds no live
loader, so its enumeration is defined only when `S` is empty. -/
theorem select_select_enumerate {α B C : Type} (xs : List α) (f : α → B) (g : B → C) :
    (((from_ xs).toIState.select f).select g).bind (fun st => st.toIState.enumerate)
      = if xs.length = 0 then some ([], ()) else none := by
  have e : ((from_ xs).toIState.select f).select g
      = some { Iterator := container_iterator α, _begin := xs, _end := [],
               _loader := none, ctx := () } := rfl
  rw [e]
  simp only [Option.bind]
  exact enumerate_dead_loader xs

/-- C12 (code evaluated at the failing input): for `S = [1,2,3]`, `f = x + 1` and
`g = y * 2` the stage `S.Select(f).Select(g)` holds its loader as a reference to a closure
that `Select::select` has destroyed; enumerating it has to call that loader at the first
element and is undefined, where the claim says the result is `[4,6,8]`; the single
`S.Select(x ↦ g (f x))` does enumerate `[4,6,8]`. -/
theorem C12_select_select_dead_loader :
    (((from_ [1, 2, 3]).toIState.select (fun x => x + 1)).select (fun y => y * 2)).map
        (fun st => st._loader.isSome)
      = some false ∧
    (((from_ [1, 2, 3]).toIState.select (fun x => x + 1)).select (fun y => y * 2)).bind
        (fun st => st.toIState.enumerate)
      = none ∧
    ((from_ [1, 2, 3]).toIState.select (fun x => (x + 1) * 2)).toIState.enumerate
      = some ([4, 6, 8], ()) := by
  decide

/-! ## Claims on `Take` -/

theorem take_run_of_walk {σB σ α B Out : Type} (st : IState σB σ α B Out) {L : List Out}
    (h : Walk st.it st._end st.ctx st._begin L) (n : Nat) (hn : n < 2 ^ size_bits) :
    Run (st.take n).toIState.it (st.take n).toIState._end (st.take n).toIState.ctx
      (st.take n).toIState._begin (L.take n) (n - min n L.length, st.ctx) :=
  h.reach n hn

/-- C13: the first enumeration of a fresh `S.Take(n)` yields the first `min n |S|`
elements of `S` in the original order (and leaves `number_ = n - min n |S|`); `Take(0)`
yields nothing and `Take(n)` with `n ≥ |S|` yields all of `S`. -/
theorem C13_take {α : Type} (xs : List α) (n : Nat) (hn : n < 2 ^ size_bits) :
    ((from_ xs).toIState.take n).toIState.enumerate
        = some (xs.take n, (n - min n xs.length, ())) ∧
      (xs.take n).length = min n xs.length ∧
      ((from_ xs).toIState.take 0).toIState.enumerate = some ([], (0, ())) ∧
      (xs.length ≤ n →
        ((from_ xs).toIState.take n).toIState.enumerate = some (xs, (n - xs.length, ()))) := by
  have h := IState.enumerate_of_run _ (take_run_of_walk _ (walk_from_stage xs) n hn)
  have h0 := IState.enumerate_of_run _
    (take_run_of_walk _ (walk_from_stage xs) 0 (by simp [size_bits]))
  refine ⟨h, List.length_take _ _, by simpa using h0, ?_⟩
  intro hle
  rw [h, List.take_of_length_le hle, Nat.min_eq_right hle]

/-- C13, at `S = [1,2,3,4]` and `n = 2`. -/
theorem C13_take_witness :
    ((from_ [1, 2, 3, 4]).toIState.take 2).toIState.enumerate = some ([1, 2], (0, ())) :=
  (C13_take [1, 2, 3, 4] 2 (by decide)).1

/-- C14: the first enumeration of a fresh `S.Select(f).Take(n)` yields `f` of the first
`min n |S|` elements of `S`, in the original order. -/
theorem C14_select_take {α C : Type} (xs : List α) (f : α → C) (n : Nat)
    (hn : n < 2 ^ size_bits) :
    (((from_ xs).toIState.select f).toIState.take n).toIState.enumerate
        = some ((xs.take n).map f, (n - min n xs.length, ())) ∧
      ((xs.take n).map f).length = min n xs.length := by
  have h := IState.enumerate_of_run _
    (take_run_of_walk _
      (walk_select_stage xs f ((from_ xs).toIState.select f) rfl rfl rfl rfl) n hn)
  rw [List.length_map, ← List.map_take] at h
  exact ⟨h, by simp [List.length_take]⟩

/-- C14, at `S = [1,2,3,4]`, `f = x + 1` and `n = 2`. -/
theorem C14_select_take_witness :
    (((from_ [1, 2, 3, 4]).toIState.select (fun x => x + 1)).toIState.take 2).toIState.enumerate
      = some ([2, 3], (0, ())) :=
  (C14_select_take [1, 2, 3, 4] (fun x => x + 1) 2 (by decide)).1

/-- C15: the first enumeration of a fresh `S.Take(n).Take(m)` yields the first
`min m |S|` elements of `S`, whatever `n` is: `Take::take` bounds the original range
again with the fresh count `m`. -/
theorem C15_take_take {α : Type} (xs : List α) (n m : Nat) (hm : m < 2 ^ size_bits) :
    (((from_ xs).toIState.take n).take m).toIState.enumerate
        = some (xs.take m, (m - min m xs.length, ())) ∧
      (xs.take m).length = min m xs.length := by
  have h : Run (((from_ xs).toIState.take n).take m).toIState.it
      (((from_ xs).toIState.take n).take m).toIState._end
      (((from_ xs).toIState.take n).take m).toIState.ctx
      (((from_ xs).toIState.take n).take m).toIState._begin (xs.take m)
      (m - min m xs.length, ()) := (walk_container xs).reach m hm
  exact ⟨IState.enumerate_of_run _ h, List.length_take _ _⟩

/-- C15, at `S = [1,2,3,4]`, `n = 1` and `m = 3`: three elements although `n = 1`. -/
theorem C15_take_take_witness :
    (((from_ [1, 2, 3, 4]).toIState.take 1).take 3).toIState.enumerate
      = some ([1, 2, 3], (0, ())) :=
  (C15_take_take [1, 2, 3, 4] 1 3 (by decide)).1

/-! ## Claims on `Skip` and `SkipWhile` -/

theorem skip_loop_container {α : Type} :
    ∀ (k : Nat) (xs : List α),
      skip_loop (iterator.basic (container_iterator α)) [] k () xs = some ((), xs.drop k) := by
  intro k
  induction k with
  | zero => intro xs; simp [skip_loop]
  | succ j ih =>
    intro xs
    cases xs with
    | nil => simp [skip_loop, iterator.basic, container_iterator]
    | cons x rest =>
      have h := ih rest
      simp only [iterator.basic, container_iterator] at h
      simp [skip_loop, iterator.basic, container_iterator, h]

theorem skip_on_root {α : Type} (xs : List α) (n : Nat) :
    (from_ xs).toIState.skip n
      = some { Iterator := iterator.basic (container_iterator α), _begin := xs.drop n,
               _end := [], ctx := () } := by
  have h := skip_loop_container n xs
  simp only [IState.skip, From.toIState, from_]
  rw [h]

theorem skipWhile_loop_container {α : Type} (l : List α) (func : α → Bool) :
    ∀ (fuel : Nat) (xs : List α), xs.length < fuel →
      skipWhile_loop (from_ l).toIState func fuel () xs = some ((), xs.dropWhile func) := by
  intro fuel
  induction fuel with
  | zero => intro xs h; omega
  | succ k ih =>
    intro xs h
    cases xs with
    | nil => simp [skipWhile_loop, From.toIState, from_, container_iterator]
    | cons x rest =>
      have hk : rest.length < k := by simpa using h
      cases hp : func x with
      | true =>
        have h2 := ih rest hk
        simp [skipWhile_loop, From.toIState, from_, container_iterator, iterator.basic, hp,
          List.dropWhile_cons] at h2 ⊢
        exact h2
      | false =>
        simp [skipWhile_loop, From.toIState, from_, container_iterator, iterator.basic, hp,
          List.dropWhile_cons]

theorem skipWhile_on_root {α : Type} (xs : List α) (func : α → Bool) :
    (from_ xs).toIState.skipWhile func
      = some { Iterator := iterator.basic (container_iterator α),
               _begin := xs.dropWhile func, _end := [], ctx := () } := by
  have h := skipWhile_loop_container xs func (xs.length + 1) xs (Nat.lt_succ_self _)
  unfold IState.skipWhile
  have hb : (from_ xs).toIState._begin = xs := rfl
  rw [hb, h]
  rfl

theorem enumerate_skipped {α : Type} (v : List α) :
    (From.toIState { Iterator := iterator.basic (container_iterator α), _begin := v,
                     _end := [], ctx := () }).enumerate = some (v, ()) :=
  IState.enumerate_of_run
    (From.toIState { Iterator := iterator.basic (container_iterator α), _begin := v,
                     _end := [], ctx := () }) (walk_container v).run

/-- C16: enumerating `S.Skip(n)` yields `S` without its first `min n |S|` elements, in
the original order; `Skip(0)` yields `S` itself and `Skip(n)` with `n ≥ |S|` yields
nothing. -/
theorem C16_skip {α : Type} (xs : List α) (n k : Nat) :
    ((from_ xs).toIState.skip n).bind (fun r => r.toIState.enumerate)
        = some (xs.drop n, ()) ∧
      xs.take (min n xs.length) ++ xs.drop n = xs ∧
      ((from_ xs).toIState.skip 0).bind (fun r => r.toIState.enumerate) = some (xs, ()) ∧
      ((from_ xs).toIState.skip (xs.length + k)).bind (fun r => r.toIState.enumerate)
        = some ([], ()) := by
  refine ⟨?_, ?_, ?_, ?_⟩
  · rw [skip_on_root]
    exact enumerate_skipped _
  · have e : xs.take (min n xs.length) = xs.take n := by
      rw [List.take_eq_take]
      simp
    rw [e, List.take_append_drop]
  · rw [skip_on_root]
    exact enumerate_skipped _
  · rw [skip_on_root]
    have e : xs.drop (xs.length + k) = [] := List.drop_eq_nil_of_le (by omega)
    rw [e]
    exact enumerate_skipped _

/-- C17: enumerating `S.SkipWhile(p)` yields `S` without its longest leading run of
elements that satisfy `p`: what is dropped all satisfies `p`, what is kept is the rest of
`S` unchanged and in order, and it is empty or starts with an element that fails `p`. -/
theorem C17_skipWhile {α : Type} (xs : List α) (p : α → Bool) :
    ((from_ xs).toIState.skipWhile p).bind (fun r => r.toIState.enumerate)
        = some (xs.dropWhile p, ()) ∧
      xs.takeWhile p ++ xs.dropWhile p = xs ∧
      (∀ x ∈ xs.takeWhile p, p x = true) ∧
      (∀ y ∈ (xs.dropWhile p).head?, p y = false) := by
  refine ⟨?_, List.takeWhile_append_dropWhile p xs, ?_, ?_⟩
  · rw [skipWhile_on_root]
    exact enumerate_skipped _
  · intro x hx
    exact List.mem_takeWhile_imp hx
  · intro y hy
    have h := List.head?_dropWhile_not p xs
    rw [Option.mem_def] at hy
    rw [hy] at h
    simpa using h

/-! ## Claims on `Asc`, `Desc`, `Sum` and `Count` -/

/-- C18: enumerating `S.OrderBy(keys).Desc()` yields the reverse of what
`S.OrderBy(keys)` enumerates, over the same vector `proxy_`, and `S.OrderBy(keys).Asc()`
enumerates the same sequence as `S.OrderBy(keys)`. -/
theorem C18_desc_asc {α : Type} (sort : (α → α → Bool) → List α → List α) (xs : List α)
    (key : order_by_modifier_end α) (keys : List (order_by_modifier_end α)) :
    ((from_ xs).toIState.orderBy sort key keys).bind (fun r => r.1.toIState.enumerate)
        = some (sort (fun a b => order_by a b key keys) xs, ()) ∧
      ((from_ xs).toIState.orderBy sort key keys).bind (fun r => r.1.desc.toIState.enumerate)
        = some ((sort (fun a b => order_by a b key keys) xs).reverse, ()) ∧
      ((from_ xs).toIState.orderBy sort key keys).bind (fun r => r.1.asc.toIState.enumerate)
        = some (sort (fun a b => order_by a b key keys) xs, ()) ∧
      ((from_ xs).toIState.orderBy sort key keys).map (fun r => r.1.desc.proxy_)
        = ((from_ xs).toIState.orderBy sort key keys).map (fun r => r.1.proxy_) := by
  rw [IState.orderBy_container]
  simp only [Option.bind, Option.map]
  refine ⟨enumerate_orderby_stage _, ?_, enumerate_orderby_stage _, rfl⟩
  exact IState.enumerate_of_run
    (OrderBy.toIState (OrderBy.desc
      { Iterator := container_iterator α,
        _begin := sort (fun a b => order_by a b key keys) xs, _end := [],
        proxy_ := sort (fun a b => order_by a b key keys) xs }))
    (walk_container (sort (fun a b => order_by a b key keys) xs).reverse).run

theorem sum_of_run {σB σ α B Out : Type} [Zero Out] [Add Out] (st : IState σB σ α B Out)
    {L : List Out} {s2 : σ} (h : Run st.it st._end st.ctx st._begin L s2) :
    st.sum = some (L.foldl (fun result it => result + it) 0, s2) := by
  unfold IState.sum
  rw [h.range_for_eq _ _ _ (Nat.lt_succ_self _)]

/-- C19: `Sum()` of a sequence is `0` with every element added to it in traversal order,
which is the sum of the list; `Sum()` of the empty sequence is `0`.  The element type is
any type with an associative addition and a zero, the integers among them. -/
theorem C19_sum {M : Type} [AddMonoid M] (xs : List M) :
    (from_ xs).toIState.sum = some (xs.foldl (fun result it => result + it) 0, ()) ∧
      (from_ xs).toIState.sum = some (xs.sum, ()) ∧
      (from_ ([] : List M)).toIState.sum = some (0, ()) ∧
      (from_ [(3 : Int), -5, 7]).toIState.sum = some (5, ()) := by
  have h := sum_of_run (from_ xs).toIState (walk_from_stage xs).run
  have h0 := sum_of_run (from_ ([] : List M)).toIState (walk_from_stage []).run
  refine ⟨h, ?_, by simpa using h0, by decide⟩
  rw [h, List.sum_eq_foldl]

theorem where_on_selectwhere {α B : Type} (st : SelectWhere Unit α α B) (p : α → Bool)
    (f : α → B) (hI : st.Iterator = container_iterator α) (he : st._end = [])
    (hf : st._filter = some p) (hl : st._loader = some f) (q : B → Bool) :
    st.where_ q
      = some { Iterator := container_iterator α,
               _begin := st._begin.dropWhile (fun x => !(p x && q (f x))),
               _end := [], _filter := none, _loader := some f, ctx := () } := by
  simp [SelectWhere.where_, hI, he, hf, hl,
    find_if_container (fun x => p x && q (f x)) _ st._begin (Nat.lt_succ_self _)]

/-- What `S.Where(p).Select(f).Where(q).Select(g)` does for every `S`, `p`, `f`, `q`,
`g`: `std::find_if` places `_begin` at the first `x` with `p x` and `q (f x)`, and the
enumeration is defined only when nothing follows that element. -/
theorem fused_enumerate {α B C : Type} (xs : List α) (p : α → Bool) (f : α → B)
    (q : B → Bool) (g : B → C) :
    ((from_ xs).toIState.where_ p).bind
        (fun w => ((w.select f).where_ q).bind
          (fun sw => (sw.select g).bind (fun sw2 => sw2.toIState.enumerate)))
      = if (xs.dropWhile (fun x => !(p x && q (f x)))).length ≤ 1
        then some ((xs.dropWhile (fun x => !(p x && q (f x)))).map (fun x => g (f x)), ())
        else none := by
  rw [where_on_root xs p]
  simp only [Option.bind]
  rw [where_on_selectwhere _ p f rfl rfl rfl rfl q]
  simp only [Where.select, SelectWhere.select]
  rw [dropWhile_and p (fun x => q (f x)) xs]
  exact enumerate_dead_fused_filter _ (fun x => g (f x))

/-- C21 (code evaluated at the failing input): for `S = [1,2,3,4]`, `p = (x > 1)`,
`f = x + 1`, `q = (y < 5)` and `g = y * 2` the stage
`S.Where(p).Select(f).Where(q).Select(g)` starts at the element `2` and holds its filter
as a reference to a closure that `SelectWhere::where` has destroyed, which
`SelectWhere::select` passes on; enumerating it has to call that filter at the element
`3` and is undefined, where the claim says the result is `[6,8]`. -/
theorem C21_fused_dead_filter :
    ((from_ [1, 2, 3, 4]).toIState.where_ (fun x => decide (x > 1))).bind
        (fun w => ((w.select (fun x => x + 1)).where_ (fun y => decide (y < 5))).bind
          (fun sw => (sw.select (fun y => y * 2)).map
            (fun sw2 => (sw2._begin, sw2._filter.isSome, sw2._loader.isSome))))
      = some ([2, 3, 4], false, true) ∧
    ((from_ [1, 2, 3, 4]).toIState.where_ (fun x => decide (x > 1))).bind
        (fun w => ((w.select (fun x => x + 1)).where_ (fun y => decide (y < 5))).bind
          (fun sw => (sw.select (fun y => y * 2)).bind
            (fun sw2 => sw2.toIState.enumerate)))
      = none := by
  decide

/-- C22: the first enumeration of a fresh `S.Where(p).Take(n)` yields the first
`min n m` elements of the filtered sequence, `m` being the number of elements of `S`
that satisfy `p`: the count is taken over delivered elements. -/
theorem C22_where_take {α : Type} (xs : List α) (p : α → Bool) (n : Nat)
    (hn : n < 2 ^ size_bits) :
    ((from_ xs).toIState.where_ p).bind (fun w => (w.toIState.take n).toIState.enumerate)
        = some ((xs.filter p).take n, (n - min n (xs.countP p), ())) ∧
      ((xs.filter p).take n).length = min n (xs.countP p) := by
  have hlen : (xs.filter p).length = xs.countP p := by
    rw [List.countP_eq_length_filter]
  have hw := walk_where_stage xs p
    { Iterator := container_iterator α, _begin := xs.dropWhile (fun x => !p x),
      _end := [], _filter := some p, ctx := () } rfl rfl rfl rfl
  have h := IState.enumerate_of_run _ (take_run_of_walk _ hw n hn)
  rw [hlen] at h
  refine ⟨?_, by rw [List.length_take, hlen]⟩
  rw [where_on_root xs p]
  exact h

/-- C22, at `S = [1,5,3,5,1,2]`, `p = (x > 1)` and `n = 2`. -/
theorem C22_where_take_witness :
    ((from_ [1, 5, 3, 5, 1, 2]).toIState.where_ (fun x => decide (x > 1))).bind
        (fun w => (w.toIState.take 2).toIState.enumerate)
      = some ([5, 3], (0, ())) :=
  (C22_where_take [1, 5, 3, 5, 1, 2] (fun x => decide (x > 1)) 2 (by decide)).1

/-- The stage `S.Take(n).Where(p)` enumerates every element of `S` that satisfies `p`,
whatever `n`: `IState::where` rebuilds the range over `Base_It`, below the `reach`
iterator. -/
theorem Take.where_enumerate {α : Type} (xs : List α) (n : Nat) (p : α → Bool) :
    (((from_ xs).toIState.take n).toIState.where_ p).bind (fun w => w.toIState.enumerate)
      = some (xs.filter p, ()) := by
  have e : ((from_ xs).toIState.take n).toIState.where_ p
      = some { Iterator := container_iterator α, _begin := xs.dropWhile (fun x => !p x),
               _end := [], _filter := some p, ctx := () } := by
    have hf := find_if_container p (xs.length + 1) xs (Nat.lt_succ_self _)
    simp only [container_iterator] at hf
    simp [IState.where_, Take.toIState, IState.take, From.toIState, from_, iterator.basic,
      container_iterator, hf]
  rw [e]
  exact IState.enumerate_of_run _
    (walk_where_stage xs p
      { Iterator := container_iterator α, _begin := xs.dropWhile (fun x => !p x),
        _end := [], _filter := some p, ctx := () } rfl rfl rfl rfl).run

/-- C23 (code evaluated at the failing input): for `S = [1,2,3,4]`, `n = 2` and
`p = (x is odd)` the stage `S.Take(2).Where(p)` enumerates `[1,3]`, not `[1]`: the bound
of `Take` does not survive the `Where`. -/
theorem C23_take_where_drops_bound :
    (((from_ [1, 2, 3, 4]).toIState.take 2).toIState.where_ (fun x => decide (x % 2 = 1))).bind
        (fun w => w.toIState.enumerate)
      = some ([1, 3], ()) := by
  decide

/-! ## Claims on the comparator as a strict order and on the counter of `Take` -/

theorem order_by_next_irrefl {In : Type} (a : In) (keys : List (order_by_modifier_end In)) :
    ∀ key1 key2 : order_by_modifier_end In, order_by_next a a key1 key2 keys = false := by
  induction keys with
  | nil => intro key1 key2; simp [order_by_next, order_by_less_irrefl]
  | cons key3 rest ih =>
    intro key1 key2
    simp [order_by_next, order_by_less_irrefl, ih key2 key3]

/-- The comparator of `orderBy` is irreflexive for every list of keys. -/
theorem order_by_irrefl {In : Type} (a : In) (key : order_by_modifier_end In)
    (keys : List (order_by_modifier_end In)) : order_by a a key keys = false := by
  cases keys with
  | nil => simp [order_by, order_by_less_irrefl]
  | cons key2 rest => simp [order_by, order_by_less_irrefl, order_by_next_irrefl]

/-- With one or two keys the comparator of `orderBy` is a strict weak ordering. -/
theorem order_by_strict_upto_two {In : Type} (key : order_by_modifier_end In)
    (keys : List (order_by_modifier_end In)) (hk : keys.length ≤ 1) :
    strict_weak_order (fun a b => order_by a b key keys) := by
  rw [order_by_eq_spec key keys hk]
  exact spec_lex_swo (key :: keys)

theorem order_by_strict_upto_two_witness :
    strict_weak_order (fun a b : Nat × Nat =>
      order_by a b (asc (fun t => t.1)) [desc (fun t => t.2)]) :=
  order_by_strict_upto_two (asc (fun t => t.1)) [desc (fun t => t.2)] (by decide)

/-- C24 (code evaluated at the failing input): with the three ascending keys "first",
"second", "third" of a triple, the comparator that `orderBy` gives to `std::sort` holds
of `((2,5,1), (1,5,3))` and of `((1,5,3), (2,5,1))`, so it is not asymmetric, and it
does not hold of `((2,5,1), (2,5,1))`, so it is not transitive either. -/
theorem C24_comparator_three_keys :
    order_by ((2 : Nat), (5 : Nat), (1 : Nat)) (1, 5, 3)
        (asc (fun t => t.1)) [asc (fun t => t.2.1), asc (fun t => t.2.2)] = true ∧
    order_by ((1 : Nat), (5 : Nat), (3 : Nat)) (2, 5, 1)
        (asc (fun t => t.1)) [asc (fun t => t.2.1), asc (fun t => t.2.2)] = true ∧
    order_by ((2 : Nat), (5 : Nat), (1 : Nat)) (2, 5, 1)
        (asc (fun t => t.1)) [asc (fun t => t.2.1), asc (fun t => t.2.2)] = false := by
  decide

/-- C25 (code evaluated at the failing input): on `[1,1,3,5,1,2].Take(1)` the member
`skipWhile` with `p = (x == 1)` increments twice, the second time with `number_ = 0`,
which wraps to `2^64 - 1`; the stage it returns then enumerates the four elements
`[3,5,1,2]` although `n = 1`. -/
theorem C25_skipWhile_wraps_counter :
    (((from_ [1, 1, 3, 5, 1, 2]).toIState.take 1).toIState.skipWhile
        (fun x => decide (x = 1))).map (fun r => (r._begin, r.ctx))
      = some ([3, 5, 1, 2], (18446744073709551615, ())) ∧
    ((((from_ [1, 1, 3, 5, 1, 2]).toIState.take 1).toIState.skipWhile
        (fun x => decide (x = 1))).bind (fun r => r.toIState.enumerate)).map (fun r => r.1)
      = some [3, 5, 1, 2] := by
  decide

/-! ## The member `to` -/

theorem std_copy_container {α : Type} :
    ∀ (fuel : Nat) (it out : List α), it.length < fuel →
      std_copy (iterator.basic (container_iterator α)) fuel () it [] out
        = some (out ++ it, ()) := by
  intro fuel
  induction fuel with
  | zero => intro it out h; omega
  | succ k ih =>
    intro it out h
    cases it with
    | nil => simp [std_copy, valid_range, iterator.basic, container_iterator]
    | cons x rest =>
      have hk : rest.length < k := by simpa using h
      have h2 := ih rest (out ++ [x]) hk
      simp only [iterator.basic, container_iterator] at h2
      simp [std_copy, valid_range, next_position, iterator.basic, container_iterator, h2]

/-- On a root stage `to(out)` appends the container to `out`. -/
theorem to_on_root {α : Type} (xs out : List α) :
    (from_ xs).toIState.to out = some (out ++ xs, ()) :=
  std_copy_container (xs.length + 1) xs out (Nat.lt_succ_self _)

/-- On `[1,2,3].Take(2)` the range handed to `std::copy` has `!=` false after two
elements while `last - first` is still `1`, so the standard places no requirement on
what `to(out)` does. -/
theorem to_on_take_unspecified :
    ((from_ [1, 2, 3]).toIState.take 2).toIState.to [] = none := by
  decide

end linq
